import Mathlib

/-!
Verification of the LucidifyWeb sleep-stage pipeline against its
natural-language specification.

Shallow embedding conventions:
* JavaScript numbers that may be `NaN`, `±Infinity` or `undefined` are
  modelled by the inductive type `JSNum`; finite values are exact
  rationals (`ℚ`).  Code whose claims do not depend on floating-point
  rounding is embedded over `ℚ`; code built on transcendental functions
  (`Math.log`, `Math.exp`, `Math.cos`, `Math.sin`) is embedded over `ℝ`.
* Fallible JavaScript (functions that `throw`) is embedded as
  `Except String _`.
* Counted `for` loops are embedded as folds/maps over `List.range`;
  `while`-style loops with a growing cursor are embedded by well-founded
  recursion.
-/

/-- A JavaScript number as observed by the pipeline: `NaN`, `+Infinity`,
`-Infinity`, a finite value (modelled as an exact rational), or the
`undefined` value produced by an out-of-range array/property read. -/
inductive JSNum where
  | nan : JSNum
  | posInf : JSNum
  | negInf : JSNum
  | undef : JSNum
  | fin : ℚ → JSNum
deriving DecidableEq, Repr

namespace JSNum

/-- The `Number.isFinite`. -/
def isFinite : JSNum → Bool
  | fin _ => true
  | _ => false

/-- The `Number.isNaN` (note: `Number.isNaN(undefined)` is `false`). -/
def isNaN : JSNum → Bool
  | nan => true
  | _ => false

/-- The JavaScript comparison `v <= q` against a finite threshold
(`NaN`/`undefined` compare false). -/
def jsLE : JSNum → ℚ → Bool
  | fin a, q => a ≤ q
  | negInf, _ => true
  | _, _ => false

/-- The JavaScript comparison `v < q`. -/
def jsLT : JSNum → ℚ → Bool
  | fin a, q => a < q
  | negInf, _ => true
  | _, _ => false

/-- The JavaScript comparison `v > q`. -/
def jsGT : JSNum → ℚ → Bool
  | fin a, q => q < a
  | posInf, _ => true
  | _, _ => false

/-- The JavaScript comparison `v >= q`. -/
def jsGE : JSNum → ℚ → Bool
  | fin a, q => q ≤ a
  | posInf, _ => true
  | _, _ => false

/-- The JavaScript strict equality `v === q` against a finite threshold. -/
def jsEQ : JSNum → ℚ → Bool
  | fin a, q => a = q
  | _, _ => false

/-- Extract the finite value (junk `0` otherwise). -/
def toQ : JSNum → ℚ
  | fin a => a
  | _ => 0

end JSNum

/-! ## Tree-ensemble node evaluation (`src/unnamed/part_004`, `evalTreeNode`)

A LightGBM dump node is either a leaf (`leaf_value` present) or a split
node.  `default_left` may be absent in the JSON (`undefined`), in which
case the code substitutes `true`; we keep it as an `Option Bool`.
Thresholds in a JSON model dump are finite numbers (`ℚ`); the feature row
may contain arbitrary runtime JavaScript numbers (`JSNum`). -/
inductive TreeNode where
  | leaf (leafValue : ℚ) : TreeNode
  | split (splitFeature : ℕ) (threshold : ℚ) (decisionType : String)
      (defaultLeft : Option Bool) (left right : TreeNode) : TreeNode
deriving DecidableEq, Repr

/-- The `evalTreeNode(node, x)` from `src/unnamed/part_004` lines 30–62.
`x[fidx]` out of range is JavaScript `undefined`, modelled by
`JSNum.undef`; the missing-value test is `Number.isNaN(v)`.
(`return evalTreeNode(goLeft ? left : right, x)` is written with the
conditional outside the recursive call so the recursion is structural.) -/
def evalTreeNode : TreeNode → List JSNum → ℚ
  | .leaf v, _ => v
  | .split fidx thr decision dl l r, x =>
    let defaultLeft := dl.getD true
    let v := x.getD fidx .undef
    let isMissing := v.isNaN
    let goLeft :=
      if isMissing then defaultLeft
      else if decision = "<=" then v.jsLE thr
      else if decision = "<" then v.jsLT thr
      else if decision = ">" then v.jsGT thr
      else if decision = ">=" then v.jsGE thr
      else if decision = "==" then v.jsEQ thr
      else v.jsLE thr
    if goLeft then evalTreeNode l x else evalTreeNode r x

/-- The comparison selected by a decision type, with an unrecognized
decision type defaulting to `<=` (shared by the spec-side evaluators). -/
def decisionCompare (decision : String) : JSNum → ℚ → Bool :=
  match decision with
  | "<=" => JSNum.jsLE
  | "<" => JSNum.jsLT
  | ">" => JSNum.jsGT
  | ">=" => JSNum.jsGE
  | "==" => JSNum.jsEQ
  | _ => JSNum.jsLE

/-- Node evaluation as claim C1 literally states it: a *non-finite*
feature value (NaN, `+Infinity`, or `-Infinity` — and a fortiori a missing
one) follows `defaultLeft`; a finite value is compared via the decision
type. -/
def claimEvalTreeNode : TreeNode → List JSNum → ℚ
  | .leaf v, _ => v
  | .split fidx thr decision dl l r, x =>
    let v := x.getD fidx .undef
    let goLeft :=
      if !v.isFinite then dl.getD true
      else decisionCompare decision v thr
    if goLeft then claimEvalTreeNode l x else claimEvalTreeNode r x

/-- Node evaluation as amended: only a *NaN* feature value follows
`defaultLeft`; every other value (including `±Infinity` and `undefined`)
is compared via the decision type. -/
def amendedEvalTreeNode : TreeNode → List JSNum → ℚ
  | .leaf v, _ => v
  | .split fidx thr decision dl l r, x =>
    let v := x.getD fidx .undef
    let goLeft :=
      if v.isNaN then dl.getD true
      else decisionCompare decision v thr
    if goLeft then amendedEvalTreeNode l x else amendedEvalTreeNode r x

/-- The `if`-chain of `evalTreeNode` agrees with the decision-type table
of `decisionCompare` on non-missing values. -/
theorem evalTreeNode_decision_chain (decision : String) (v : JSNum) (thr : ℚ) :
    (if decision = "<=" then v.jsLE thr
      else if decision = "<" then v.jsLT thr
      else if decision = ">" then v.jsGT thr
      else if decision = ">=" then v.jsGE thr
      else if decision = "==" then v.jsEQ thr
      else v.jsLE thr) = decisionCompare decision v thr := by
  by_cases h1 : decision = "<="
  · subst h1; rfl
  by_cases h2 : decision = "<"
  · subst h2; rfl
  by_cases h3 : decision = ">"
  · subst h3; rfl
  by_cases h4 : decision = ">="
  · subst h4; rfl
  by_cases h5 : decision = "=="
  · subst h5; rfl
  simp only [if_neg h1, if_neg h2, if_neg h3, if_neg h4, if_neg h5]
  unfold decisionCompare
  split
  · exact absurd rfl h1
  · exact absurd rfl h2
  · exact absurd rfl h3
  · exact absurd rfl h4
  · exact absurd rfl h5
  · rfl

/-- C1 counterexample: at a `<=` split with threshold `5`,
`defaultLeft = true`, leaves `1` (left) and `2` (right), the feature
value `+Infinity` is *not* treated as missing: the code compares
`Infinity <= 5` (false) and goes right, while the claim prescribes the
`defaultLeft` (left) branch. -/
theorem c1_counterexample :
    evalTreeNode
        (.split 0 5 "<=" (some true) (.leaf 1) (.leaf 2)) [JSNum.posInf] = 2 ∧
      claimEvalTreeNode
        (.split 0 5 "<=" (some true) (.leaf 1) (.leaf 2)) [JSNum.posInf] = 1 ∧
      (2 : ℚ) ≠ 1 := by
  refine ⟨by decide, by decide, by norm_num⟩

/-- C1 (amended): for every tree node and feature row, the evaluator
treats exactly the NaN feature values as missing (following
`defaultLeft`, which defaults to `true` when absent); any other value —
finite or infinite — is compared against the threshold using the node's
decision type, an unrecognized decision type defaulting to `<=`; a leaf
returns its `leafValue`. -/
theorem c1_eval_tree_node (node : TreeNode) (x : List JSNum) :
    evalTreeNode node x = amendedEvalTreeNode node x := by
  induction node with
  | leaf v => rfl
  | split fidx thr decision dl l r ihl ihr =>
    unfold evalTreeNode amendedEvalTreeNode
    simp only [evalTreeNode_decision_chain]
    by_cases hmiss : (x.getD fidx .undef).isNaN = true <;>
      simp [hmiss, ihl, ihr]

/-! ## EDF decoding (`src/edf_parser.js`, `parseEdf` and `readNumber`)

The four primary-header numeric fields are modelled as the `JSNum`
results of JavaScript `Number(...)` applied to the trimmed ASCII field
text (`readAscii`/`Number` themselves are not modelled); `readNumber`'s
NaN-to-0 normalisation is `readNumberNorm`.  The columnar per-signal
header area is modelled by lists holding the per-signal read results
(their common length standing for the signal count); per-signal numeric
fields and byte values are exact rationals/naturals.  The data buffer is
the full byte buffer (`bytes`), indexed from the parsed header length
exactly as the source indexes it. -/
structure EdfChannel where
  name : String
  fs : ℚ
  samples : List ℚ
deriving DecidableEq, Repr

structure EdfRecording where
  durationSec : ℚ
  channels : List EdfChannel
deriving DecidableEq, Repr

structure EdfInput where
  hbRaw : JSNum
  rcRaw : JSNum
  durRaw : JSNum
  nsRaw : JSNum
  labels : List String
  physMins : List ℚ
  physMaxs : List ℚ
  digMins : List ℚ
  digMaxs : List ℚ
  samplesPerRecord : List ℕ
  bytes : List ℕ
deriving DecidableEq, Repr

/-- The `readNumber` (lines 27–31): `Number.isNaN(n) ? 0 : n`. -/
def readNumberNorm (n : JSNum) : JSNum := if n.isNaN then .fin 0 else n

/-- The parsed header length as a byte offset.  (JavaScript uses the
float directly; a fractional or infinite header length crashes the
`DataView` reads there, so the theorems below instantiate it with a
natural number.) -/
def edfHbNat (inp : EdfInput) : ℕ := (⌊(readNumberNorm inp.hbRaw).toQ⌋).toNat

/-- The `bytesPerRecord = samplesPerRecord.reduce((acc, n) => acc + n * 2, 0)`. -/
def edfBpr (inp : EdfInput) : ℕ := (inp.samplesPerRecord.map (· * 2)).sum

/-- The record count: the declared count, or, when it is `≤ 0`, the
defensive `floor((bytes.length - headerBytes) / bytesPerRecord)`
(ℕ-subtraction/division stand for the JavaScript floor; a negative or
division-by-zero result, which makes the JS loop run zero times or
crash, is modelled as `0`). -/
def edfRecords (inp : EdfInput) : ℕ :=
  let rc := readNumberNorm inp.rcRaw
  if rc.jsLE 0 then (inp.bytes.length - edfHbNat inp) / edfBpr inp
  else (⌊rc.toQ⌋).toNat

/-- The `signalOffsets[s]`: accumulated `samplesPerRecord * 2` of earlier signals. -/
def edfSignalOffset (inp : EdfInput) (s : ℕ) : ℕ :=
  ((inp.samplesPerRecord.take s).map (· * 2)).sum

/-- The `dv.getInt16(off, true)`: little-endian signed 16-bit read. -/
def int16At (bytes : List ℕ) (off : ℕ) : ℤ :=
  let u := bytes.getD off 0 + 256 * bytes.getD (off + 1) 0
  if u < 32768 then (u : ℤ) else (u : ℤ) - 65536

/-- Per-signal digital→physical scaling: `scale` and `baseVal` with the
`(digMax - digMin) || 1` denominator guard. -/
def edfScale (inp : EdfInput) (s : ℕ) : ℚ × ℚ :=
  let digMin := inp.digMins.getD s 0
  let digMax := inp.digMaxs.getD s 0
  let physMin := inp.physMins.getD s 0
  let physMax := inp.physMaxs.getD s 0
  let denom := if digMax - digMin = 0 then 1 else digMax - digMin
  let scale := (physMax - physMin) / denom
  (scale, physMin - scale * digMin)

/-- The sequence of sample values actually written for signal `s`, in
write order: per record, the loop over the record's samples stops
(`break`) at the first read whose second byte would fall outside the
buffer (`byteOffset + 1 >= bytes.length`), hence the `takeWhile`. -/
def edfSignalWrites (inp : EdfInput) (s : ℕ) : List ℚ :=
  let spr := inp.samplesPerRecord.getD s 0
  let sc := edfScale inp s
  (List.range (edfRecords inp)).flatMap (fun r =>
    let signalBase := edfHbNat inp + r * edfBpr inp + edfSignalOffset inp s
    ((List.range spr).takeWhile
        (fun i => signalBase + 2 * i + 1 < inp.bytes.length)).map
      (fun i => sc.2 + sc.1 * (int16At inp.bytes (signalBase + 2 * i) : ℚ)))

/-- Sequential writes `samples[writeIndex++] = v` into a pre-allocated
array (`List.set` past the end is a no-op, like a typed-array store). -/
def writeFrom : List ℚ → ℕ → List ℚ → List ℚ
  | arr, _, [] => arr
  | arr, i, v :: vs => writeFrom (arr.set i v) (i + 1) vs

/-- One decoded channel: the `Float32Array(totalSamples)` is a
zero-initialised array of length `samplesPerRecord[s] * records` that
the read loop fills from index 0. -/
def edfChannel (inp : EdfInput) (s : ℕ) : EdfChannel :=
  { name := inp.labels.getD s ""
    fs := (inp.samplesPerRecord.getD s 0 : ℚ) / (readNumberNorm inp.durRaw).toQ
    samples :=
      writeFrom
        (List.replicate (inp.samplesPerRecord.getD s 0 * edfRecords inp) 0) 0
        (edfSignalWrites inp s) }

/-- The header-validation condition of `parseEdf` (lines 113–118), in
the source's order. -/
def edfHeaderBad (hb dur ns : JSNum) : Bool :=
  !hb.isFinite || !ns.isFinite || ns.jsLE 0 || !dur.isFinite || dur.jsLE 0

/-- The `parseEdf` (lines 99–221): validate the header, then decode every
signal's channel; the throw is modelled by `Except.error`. -/
def parseEdf (inp : EdfInput) : Except String EdfRecording :=
  let hb := readNumberNorm inp.hbRaw
  let dur := readNumberNorm inp.durRaw
  let ns := readNumberNorm inp.nsRaw
  if edfHeaderBad hb dur ns then .error "Invalid EDF header"
  else
    .ok
      { durationSec := (edfRecords inp : ℚ) * dur.toQ
        channels := (List.range inp.samplesPerRecord.length).map (edfChannel inp) }

/-- Returns `true` on an `ok` result. -/
def exceptIsOk {α : Type} : Except String α → Bool
  | .ok _ => true
  | .error _ => false

/-- The header-validity condition exactly as claim C2 states it: all
four fields finite, signal count and seconds-per-record positive, and
header length at least 256. -/
def claimHeaderInvalid (hb rc dur ns : JSNum) : Bool :=
  !(hb.isFinite && rc.isFinite && dur.isFinite && ns.isFinite
    && ns.jsGT 0 && dur.jsGT 0 && hb.jsGE 256)

/-- The header-validity condition as amended: the decoder rejects iff
the header length is non-finite, the signal count is non-finite or
`≤ 0`, or the seconds-per-record is non-finite or `≤ 0`; the record
count and the `≥ 256` bound on the header length are not checked. -/
def amendedHeaderInvalid (hb dur ns : JSNum) : Bool :=
  !(hb.isFinite && ns.isFinite && ns.jsGT 0 && dur.isFinite && dur.jsGT 0)

/-- A concrete well-formed input whose header length parses to `0`:
finite, so the decoder accepts it, although it violates the claimed
`headerLength ≥ 256` constraint. -/
def edfInputC2 : EdfInput :=
  { hbRaw := .fin 0, rcRaw := .fin 1, durRaw := .fin 1, nsRaw := .fin 1
    labels := ["Ch 1"], physMins := [0], physMaxs := [1]
    digMins := [0], digMaxs := [1], samplesPerRecord := [1], bytes := [0, 0] }

/-- C2 counterexample: a buffer whose parsed header fields are
`headerLength = 0`, `recordCount = 1`, `secondsPerRecord = 1`,
`signalCount = 1` violates the claimed constraint set (header length
`< 256`), yet the decoder does not fail: it returns a recording. -/
theorem c2_counterexample :
    exceptIsOk (parseEdf edfInputC2) = true ∧
      claimHeaderInvalid (.fin 0) (.fin 1) (.fin 1) (.fin 1) = true := by
  decide

/-- The source's header check agrees with the amended condition. -/
theorem edfHeaderBad_eq_amended (hb dur ns : JSNum) :
    edfHeaderBad hb dur ns = amendedHeaderInvalid hb dur ns := by
  cases hb <;> cases dur <;> cases ns <;>
    simp [edfHeaderBad, amendedHeaderInvalid, JSNum.isFinite, JSNum.jsLE,
      JSNum.jsGT, Bool.and_assoc, Bool.or_assoc, ← not_le, Decidable.not_not]

/-- C2 (amended): the decoder fails with the invalid-header error —
returning no recording — if and only if the header length parses
non-finite, the signal count parses non-finite or `≤ 0`, or the
seconds-per-record parses non-finite or `≤ 0`.  The record count and
the `≥ 256` lower bound on the header length are not validated. -/
theorem c2_header_check (inp : EdfInput) :
    parseEdf inp = .error "Invalid EDF header" ↔
      amendedHeaderInvalid (readNumberNorm inp.hbRaw) (readNumberNorm inp.durRaw)
        (readNumberNorm inp.nsRaw) = true := by
  unfold parseEdf
  dsimp only
  rw [edfHeaderBad_eq_amended]
  by_cases h : amendedHeaderInvalid (readNumberNorm inp.hbRaw)
      (readNumberNorm inp.durRaw) (readNumberNorm inp.nsRaw) = true
  · simp [h]
  · simp [h]

/-- The `getD` of a map over `List.range` at an in-range index. -/
theorem getD_map_range {α : Type} (f : ℕ → α) {n k : ℕ} (h : k < n) (d : α) :
    ((List.range n).map f).getD k d = f k := by
  rw [List.getD_eq_getElem?_getD]
  simp [List.getElem?_map, List.getElem?_range h]

/-- The `takeWhile` never lengthens a list. -/
theorem length_takeWhile_le' {α : Type} (p : α → Bool) (l : List α) :
    (l.takeWhile p).length ≤ l.length := by
  induction l with
  | nil => simp
  | cons a l ih =>
    by_cases h : p a = true
    · simp [List.takeWhile_cons, h]; omega
    · simp [List.takeWhile_cons, h]

/-- Sequential writes starting at index `i` overwrite the slice
`[i, i + vs.length)` of a sufficiently long array. -/
theorem writeFrom_eq (vs : List ℚ) : ∀ (arr : List ℚ) (i : ℕ),
    i + vs.length ≤ arr.length →
    writeFrom arr i vs = arr.take i ++ vs ++ arr.drop (i + vs.length) := by
  induction vs with
  | nil => intro arr i _; simp [writeFrom]
  | cons v vs ih =>
    intro arr i h
    have hi : i < arr.length := by simp at h; omega
    have h' : i + 1 + vs.length ≤ (arr.set i v).length := by
      rw [List.length_set]; simp at h; omega
    rw [writeFrom, ih (arr.set i v) (i + 1) h']
    rw [List.set_eq_take_cons_drop v hi]
    rw [List.take_append_eq_append_take, List.drop_append_eq_append_drop]
    have hlen : (arr.take i).length = i := by simp; omega
    rw [hlen]
    have h1 : (arr.take i).take (i + 1) = arr.take i :=
      List.take_of_length_le (by omega)
    have h2 : (arr.take i).drop (i + 1 + vs.length) = [] :=
      List.drop_eq_nil_of_le (by omega)
    rw [h1, h2]
    have h3 : i + 1 - i = 1 := by omega
    have h4 : i + 1 + vs.length - i = 1 + vs.length := by omega
    rw [h3, h4, Nat.add_comm 1 vs.length, List.drop_succ_cons, List.drop_drop]
    simp only [List.nil_append, List.take_succ_cons, List.take_zero,
      List.append_assoc, List.singleton_append, List.cons_append]
    have h5 : i + 1 + vs.length = i + (v :: vs).length := by simp; omega
    rw [h5]

/-- Writing `vs` from index `0` into a zero-initialised array of length
`n ≥ vs.length` yields `vs` followed by the untouched zero tail. -/
theorem writeFrom_replicate (vs : List ℚ) (n : ℕ) (h : vs.length ≤ n) :
    writeFrom (List.replicate n (0 : ℚ)) 0 vs
      = vs ++ List.replicate (n - vs.length) 0 := by
  rw [writeFrom_eq vs _ 0 (by simpa using h)]
  simp [List.drop_replicate]

/-- The writes for signal `s` never outnumber the pre-allocated
`samplesPerRecord[s] * records` slots. -/
theorem edfSignalWrites_length_le (inp : EdfInput) (s : ℕ) :
    (edfSignalWrites inp s).length
      ≤ inp.samplesPerRecord.getD s 0 * edfRecords inp := by
  unfold edfSignalWrites
  rw [List.length_flatMap]
  set spr := inp.samplesPerRecord.getD s 0 with hspr
  calc (List.map _ (List.range (edfRecords inp))).sum
      ≤ (List.map _ (List.range (edfRecords inp))).length • spr := by
        apply List.sum_le_card_nsmul
        intro x hx
        simp only [List.mem_map] at hx
        obtain ⟨r, _, rfl⟩ := hx
        calc (List.map _ (List.takeWhile _ (List.range spr))).length
            = (List.takeWhile _ (List.range spr)).length := by
              rw [List.length_map]
          _ ≤ (List.range spr).length := length_takeWhile_le' _ _
          _ = spr := List.length_range spr
    _ = edfRecords inp * spr := by simp [List.length_map]
    _ = spr * edfRecords inp := Nat.mul_comm _ _

/-- A concrete EDF input whose data area ends one byte short of its
second declared 16-bit sample: one signal, two samples per record, one
record, identity scaling (`digMin 0`, `digMax 1`, `physMin 0`,
`physMax 1`), header length `0` so the three-byte buffer `[1, 0, 2]`
holds exactly one complete little-endian word (`1`). -/
def edfInputC5 : EdfInput :=
  { hbRaw := .fin 0, rcRaw := .fin 1, durRaw := .fin 1, nsRaw := .fin 1
    labels := ["Ch 1"], physMins := [0], physMaxs := [1]
    digMins := [0], digMaxs := [1], samplesPerRecord := [2], bytes := [1, 0, 2] }

/-- C5 counterexample: decoding `edfInputC5` succeeds and yields the
channel sample sequence `[1, 0]` — the truncated second position is
present and zero-filled (the pre-allocated `Float32Array(2)` keeps its
length), whereas the claim asserts the decoded sequence contains *only*
the one fully-read sample, i.e. `[1]`. -/
theorem c5_counterexample :
    (parseEdf edfInputC5).toOption.map
        (fun r => (r.channels.getD 0 ⟨"", 0, []⟩).samples) = some [1, 0] ∧
      ([1, 0] : List ℚ) ≠ [1] := by
  have hrec : edfRecords edfInputC5 = 1 := by
    norm_num [edfRecords, edfInputC5, readNumberNorm, JSNum.isNaN, JSNum.jsLE,
      JSNum.toQ]
  have hw : edfSignalWrites edfInputC5 0 = [1] := by
    unfold edfSignalWrites
    rw [hrec]
    norm_num [edfInputC5, edfScale, edfHbNat, edfBpr, edfSignalOffset, int16At,
      readNumberNorm, JSNum.isNaN, JSNum.toQ, List.range_succ, List.takeWhile]
  have hchan : edfChannel edfInputC5 0 = ⟨"Ch 1", 2, [1, 0]⟩ := by
    unfold edfChannel
    rw [hrec, hw]
    norm_num [edfInputC5, readNumberNorm, JSNum.isNaN, JSNum.toQ, writeFrom,
      List.replicate_succ]
  have hparse : parseEdf edfInputC5 = .ok ⟨1, [⟨"Ch 1", 2, [1, 0]⟩]⟩ := by
    unfold parseEdf
    dsimp only
    have hbad : edfHeaderBad (readNumberNorm edfInputC5.hbRaw)
        (readNumberNorm edfInputC5.durRaw) (readNumberNorm edfInputC5.nsRaw)
          = false := by decide
    rw [hbad]
    simp only [Bool.false_eq_true, if_false, Except.ok.injEq,
      EdfRecording.mk.injEq]
    refine ⟨?_, ?_⟩
    · rw [hrec]
      norm_num [edfInputC5, readNumberNorm, JSNum.isNaN, JSNum.toQ]
    · rw [show edfInputC5.samplesPerRecord.length = 1 from rfl]
      simp [List.range_succ, hchan]
  constructor
  · simp [hparse, Except.toOption]
  · simp

/-- C5 (amended): for every EDF input that passes the header check and
every declared signal `s`, decoding raises no error, and the decoded
channel's sample sequence is the sequence of fully-read samples (reading
stops, per record, at the first sample whose second byte lies beyond the
buffer) followed by zero-filled entries padding the sequence to its
declared length `samplesPerRecord[s] * records`; truncated positions are
zero-filled, not dropped. -/
theorem c5_truncated_data (inp : EdfInput) (s : ℕ)
    (hok : edfHeaderBad (readNumberNorm inp.hbRaw) (readNumberNorm inp.durRaw)
      (readNumberNorm inp.nsRaw) = false)
    (hs : s < inp.samplesPerRecord.length) :
    (parseEdf inp).toOption.map
        (fun r => (r.channels.getD s ⟨"", 0, []⟩).samples)
      = some (edfSignalWrites inp s
          ++ List.replicate
              (inp.samplesPerRecord.getD s 0 * edfRecords inp
                - (edfSignalWrites inp s).length) 0) := by
  unfold parseEdf
  dsimp only
  rw [hok]
  simp only [Bool.false_eq_true, if_false, Except.toOption, Option.map_some']
  rw [getD_map_range (edfChannel inp) hs]
  unfold edfChannel
  rw [writeFrom_replicate _ _ (edfSignalWrites_length_le inp s)]

/-! ## Feature-table smoothing and robust scaling
(`src/yasa/yasa_features.js`: `quantileSorted`, `robustScaleColumn`,
`rollingTriangCentered`, `rollingPastMean`, `robustScaleMatrixCols`,
`windowEpochs`)

All of this code is plain rational arithmetic (sorting, quantile
interpolation, running means), so it is embedded over `ℚ`.  The
JavaScript numeric ascending sort `Array.from(col).sort((a, b) => a - b)`
is `List.insertionSort (· ≤ ·)`. -/

/-- The `quantileSorted(sorted, q)` (lines 30–37).  The JavaScript function
returns NaN on an empty list; `ℚ` has no NaN, so the empty case returns
junk `0` (all theorems below apply it to non-empty columns). -/
def quantileSorted (s : List ℚ) (q : ℚ) : ℚ :=
  if s.length = 0 then 0
  else
    let pos := ((s.length - 1 : ℕ) : ℚ) * q
    let base := (⌊pos⌋).toNat
    let rest := pos - ⌊pos⌋
    if s.length ≤ base + 1 then s.getD base 0
    else s.getD base 0 + rest * (s.getD (base + 1) 0 - s.getD base 0)

/-- The `robustScaleColumn(col, qLow, qHigh)` (lines 44–54): centre on the
median and scale by the `qHigh − qLow` quantile range, substituting a
unit scale when that range is zero (the JavaScript also guards a
non-finite range, which cannot arise over `ℚ`). -/
def robustScaleColumn (col : List ℚ) (qLow qHigh : ℚ) : List ℚ :=
  let s := List.insertionSort (· ≤ ·) col
  let med := quantileSorted s (1/2)
  let lo := quantileSorted s qLow
  let hi := quantileSorted s qHigh
  let scale0 := hi - lo
  let scale := if scale0 = 0 then 1 else scale0
  col.map (fun x => (x - med) / scale)

/-- The `triangWeights(L)` (lines 294–301): `(mid+1 - |i - mid|) / (mid+1)`
with `mid = (L-1)/2` in real (here rational) arithmetic. -/
def triangWeights (L : ℕ) : List ℚ :=
  let mid : ℚ := ((L : ℚ) - 1) / 2
  let denom := mid + 1
  (List.range L).map (fun (i : ℕ) => (denom - |(i : ℚ) - mid|) / denom)

/-- The `rollingTriangCentered(matrix, L)` (lines 303–326): centred
triangular-weighted rolling mean over a window of `L` epochs, skipping
out-of-range rows and renormalising by the sum of the used weights
(`wsum || 1`).  The window centre offset is integer `(L-1) >> 1`. -/
def rollingTriangCentered (matrix : List (List ℚ)) (L : ℕ) : List (List ℚ) :=
  let T := matrix.length
  let D := (matrix.getD 0 []).length
  let w := triangWeights L
  let mid := (L - 1) / 2
  (List.range T).map (fun (t : ℕ) =>
    (List.range D).map (fun (d : ℕ) =>
      let acc := (List.range L).foldl
        (fun (p : ℚ × ℚ) (k : ℕ) =>
          let tt : ℤ := (t : ℤ) + (k : ℤ) - (mid : ℤ)
          if tt < 0 ∨ (T : ℤ) ≤ tt then p
          else
            let wk := w.getD k 0
            (p.1 + (matrix.getD tt.toNat []).getD d 0 * wk, p.2 + wk))
        (0, 0)
      acc.1 / (if acc.2 = 0 then 1 else acc.2)))

/-- The `rollingPastMean(matrix, L)` (lines 328–344): past-only rolling mean
over the window `[max(0, t-(L-1)), t]`. -/
def rollingPastMean (matrix : List (List ℚ)) (L : ℕ) : List (List ℚ) :=
  let T := matrix.length
  let D := (matrix.getD 0 []).length
  (List.range T).map (fun t =>
    (List.range D).map (fun d =>
      let start := t - (L - 1)
      let count : ℚ := ((t - start + 1 : ℕ) : ℚ)
      let acc := ((List.range (t - start + 1)).map
        (fun j => (matrix.getD (start + j) []).getD d 0)).sum
      acc / count))

/-- The `robustScaleMatrixCols(matrix)` (lines 346–363): extract each
column, robust-scale it with quantiles `0.05`/`0.95`, and transpose the
scaled columns back into rows. -/
def robustScaleMatrixCols (matrix : List (List ℚ)) : List (List ℚ) :=
  let T := matrix.length
  let D := (matrix.getD 0 []).length
  let cols := (List.range D).map (fun d =>
    robustScaleColumn ((List.range T).map
      (fun t => (matrix.getD t []).getD d 0)) (1/20) (19/20))
  (List.range T).map (fun t => (List.range D).map (fun d =>
    (cols.getD d []).getD t 0))

/-- The column median/scale entry formula exactly as claim C3 states it:
`(x - median) / (p95 - p25)` with fallback scale `1`. -/
def claimRobustEntry (col : List ℚ) (x : ℚ) : ℚ :=
  let s := List.insertionSort (· ≤ ·) col
  let med := quantileSorted s (1/2)
  let range0 := quantileSorted s (19/20) - quantileSorted s (1/4)
  let scale := if range0 = 0 then 1 else range0
  (x - med) / scale

/-- The column entry formula as amended: `(x - median) / (p95 - p05)`
with fallback scale `1`. -/
def amendedRobustEntry (col : List ℚ) (x : ℚ) : ℚ :=
  let s := List.insertionSort (· ≤ ·) col
  let med := quantileSorted s (1/2)
  let range0 := quantileSorted s (19/20) - quantileSorted s (1/20)
  let scale := if range0 = 0 then 1 else range0
  (x - med) / scale

/-- C3 counterexample: on the column `[0, 1, 2, 3, 100]` the code
(quantiles 5%/95%, scale `403/5 - 1/5 = 402/5`) maps the entry `0` to
`-5/201`, whereas the claimed formula (25%/95%, scale `403/5 - 1 =
398/5`) would map it to `-5/199`. -/
theorem c3_counterexample :
    (robustScaleColumn [0, 1, 2, 3, 100] (1/20) (19/20)).getD 0 99 = -5/201 ∧
      claimRobustEntry [0, 1, 2, 3, 100] 0 = -5/199 ∧
      (-5/201 : ℚ) ≠ -5/199 := by
  have hsort :
      List.insertionSort (· ≤ ·) ([0, 1, 2, 3, 100] : List ℚ)
        = [0, 1, 2, 3, 100] := by decide
  have hq05 : quantileSorted [0, 1, 2, 3, 100] (1/20) = 1/5 := by
    norm_num [quantileSorted, List.getD_cons_zero, List.getD_cons_succ]
  have hq25 : quantileSorted [0, 1, 2, 3, 100] (1/4) = 1 := by
    norm_num [quantileSorted, List.getD_cons_zero, List.getD_cons_succ,
      (show Int.toNat 1 = 1 from rfl)]
  have hq50 : quantileSorted [0, 1, 2, 3, 100] (1/2) = 2 := by
    norm_num [quantileSorted, List.getD_cons_zero, List.getD_cons_succ,
      (show Int.toNat 2 = 2 from rfl)]
  have hq95 : quantileSorted [0, 1, 2, 3, 100] (19/20) = 403/5 := by
    norm_num [quantileSorted, List.getD_cons_zero, List.getD_cons_succ,
      (show Int.toNat 3 = 3 from rfl)]
  refine ⟨?_, ?_, by norm_num⟩
  · unfold robustScaleColumn
    rw [hsort]
    dsimp only
    rw [hq05, hq50, hq95]
    norm_num
  · unfold claimRobustEntry
    rw [hsort]
    dsimp only
    rw [hq25, hq50, hq95]
    norm_num

/-- The `getD` of a mapped list at an in-range index. -/
theorem getD_map_of_lt {α β : Type} (f : α → β) (l : List α) {k : ℕ}
    (h : k < l.length) (d : β) (d' : α) :
    (l.map f).getD k d = f (l.getD k d') := by
  rw [List.getD_eq_getElem?_getD, List.getElem?_map,
    List.getElem?_eq_getElem h]
  simp [List.getD_eq_getElem?_getD, List.getElem?_eq_getElem h]

/-- Entry formula of `robustScaleColumn` at the quantile pair used by
the pipeline. -/
theorem robustScaleColumn_getD (col : List ℚ) {t : ℕ} (h : t < col.length) :
    (robustScaleColumn col (1/20) (19/20)).getD t 0
      = amendedRobustEntry col (col.getD t 0) := by
  unfold robustScaleColumn amendedRobustEntry
  dsimp only
  rw [getD_map_of_lt _ _ h _ 0]

/-- The `rollingTriangCentered` has one output row per input row. -/
theorem length_rollingTriangCentered (base : List (List ℚ)) (L : ℕ) :
    (rollingTriangCentered base L).length = base.length := by
  unfold rollingTriangCentered
  dsimp only
  rw [List.length_map, List.length_range]

/-- The first output row of `rollingTriangCentered` has the input's
column count. -/
theorem width_rollingTriangCentered (base : List (List ℚ)) (L : ℕ)
    (h0 : 0 < base.length) :
    ((rollingTriangCentered base L).getD 0 []).length
      = (base.getD 0 []).length := by
  unfold rollingTriangCentered
  dsimp only
  rw [getD_map_range _ h0]
  simp

/-- The `rollingPastMean` has one output row per input row. -/
theorem length_rollingPastMean (base : List (List ℚ)) (L : ℕ) :
    (rollingPastMean base L).length = base.length := by
  simp [rollingPastMean]

/-- The first output row of `rollingPastMean` has the input's column
count. -/
theorem width_rollingPastMean (base : List (List ℚ)) (L : ℕ)
    (h0 : 0 < base.length) :
    ((rollingPastMean base L).getD 0 []).length
      = (base.getD 0 []).length := by
  unfold rollingPastMean
  dsimp only
  rw [getD_map_range _ h0]
  simp

/-- Each entry of `robustScaleMatrixCols` is its column's value put
through the amended robust-scale formula for that column. -/
theorem robustScaleMatrixCols_entry (M : List (List ℚ)) {t d : ℕ}
    (ht : t < M.length) (hd : d < (M.getD 0 []).length) :
    ((robustScaleMatrixCols M).getD t []).getD d 0
      = amendedRobustEntry
          ((List.range M.length).map (fun u => (M.getD u []).getD d 0))
          ((M.getD t []).getD d 0) := by
  unfold robustScaleMatrixCols
  dsimp only
  rw [getD_map_range _ ht, getD_map_range _ hd, getD_map_range _ hd,
    robustScaleColumn_getD _ (by simpa using ht), getD_map_range _ ht]

/-- C3 (amended): each temporally smoothed feature column — the
centred-triangular (15-epoch) family later suffixed `_c7min_norm` and
the past-rolling (4-epoch) family later suffixed `_p2min_norm` — is
robust-scaled per column as `(x - column median) / (column 95th
percentile - column 5th percentile)`, with the scale replaced by `1`
when that percentile difference is zero (or non-finite, which cannot
arise in exact arithmetic). -/
theorem c3_robust_scaling (base : List (List ℚ)) (t d : ℕ)
    (ht : t < base.length) (hd : d < (base.getD 0 []).length) :
    (((robustScaleMatrixCols (rollingTriangCentered base 15)).getD t []).getD d 0
      = amendedRobustEntry
          ((List.range (rollingTriangCentered base 15).length).map
            (fun u => ((rollingTriangCentered base 15).getD u []).getD d 0))
          (((rollingTriangCentered base 15).getD t []).getD d 0))
    ∧ (((robustScaleMatrixCols (rollingPastMean base 4)).getD t []).getD d 0
      = amendedRobustEntry
          ((List.range (rollingPastMean base 4).length).map
            (fun u => ((rollingPastMean base 4).getD u []).getD d 0))
          (((rollingPastMean base 4).getD t []).getD d 0)) := by
  have h0 : 0 < base.length := Nat.lt_of_le_of_lt (Nat.zero_le t) ht
  refine ⟨?_, ?_⟩
  · exact robustScaleMatrixCols_entry _
      (by rw [length_rollingTriangCentered]; exact ht)
      (by rw [width_rollingTriangCentered _ _ h0]; exact hd)
  · exact robustScaleMatrixCols_entry _
      (by rw [length_rollingPastMean]; exact ht)
      (by rw [width_rollingPastMean _ _ h0]; exact hd)

/-- C3 witness: the amended scaling theorem applied to the concrete
2-epoch, 1-feature table `[[1], [2]]` at entry `(0, 0)`. -/
theorem c3_witness :
    (0 < ([[1], [2]] : List (List ℚ)).length
        ∧ 0 < (([[1], [2]] : List (List ℚ)).getD 0 []).length)
    ∧ ((((robustScaleMatrixCols (rollingTriangCentered [[1], [2]] 15)).getD 0 []).getD 0 0
        = amendedRobustEntry
            ((List.range (rollingTriangCentered [[1], [2]] 15).length).map
              (fun u => ((rollingTriangCentered [[1], [2]] 15).getD u []).getD 0 0))
            (((rollingTriangCentered [[1], [2]] 15).getD 0 []).getD 0 0))
      ∧ (((robustScaleMatrixCols (rollingPastMean [[1], [2]] 4)).getD 0 []).getD 0 0
        = amendedRobustEntry
            ((List.range (rollingPastMean [[1], [2]] 4).length).map
              (fun u => ((rollingPastMean [[1], [2]] 4).getD u []).getD 0 0))
            (((rollingPastMean [[1], [2]] 4).getD 0 []).getD 0 0))) :=
  ⟨⟨by decide, by decide⟩, c3_robust_scaling [[1], [2]] 0 0 (by decide) (by decide)⟩

/-- The `windowEpochs(x, fs, epochSec)` (lines 369–380): split a channel
into `floor(x.length / nPer)` consecutive windows of
`nPer = Math.floor(fs * epochSec)` samples.  (With `nPer = 0` the
JavaScript epoch count is `Infinity`; ℕ-division yields `0` instead,
and the theorems below assume `nPer ≥ 1`.) -/
def windowEpochs (x : List ℚ) (fs epochSec : ℚ) : List (List ℚ) :=
  let nPer := (⌊fs * epochSec⌋).toNat
  let nEpoch := x.length / nPer
  (List.range nEpoch).map (fun (e : ℕ) =>
    (List.range nPer).map (fun (i : ℕ) => x.getD (e * nPer + i) 0))

/-- The epoching behaviour as amended: with
`nPer = floor(fs * epochSec)` (not `round`), the channel is split into
`floor(length / nPer)` contiguous non-overlapping epochs, epoch `e`
being the `nPer` samples starting at sample `e * nPer`, and the
trailing remainder (shorter than one epoch) is dropped. -/
def amendedWindowEpochsSpec (x : List ℚ) (fs epochSec : ℚ) : Prop :=
  let nPer := (⌊fs * epochSec⌋).toNat
  (windowEpochs x fs epochSec).length = x.length / nPer
  ∧ (∀ e < x.length / nPer,
      (windowEpochs x fs epochSec).getD e [] = (x.drop (e * nPer)).take nPer)
  ∧ (∀ e < x.length / nPer,
      ((windowEpochs x fs epochSec).getD e []).length = nPer)
  ∧ (x.length / nPer) * nPer ≤ x.length
  ∧ x.length < (x.length / nPer + 1) * nPer

/-- Reading `nPer` consecutive `getD` values starting at `st` is the
`drop`/`take` slice, provided the slice lies within the list. -/
theorem map_getD_range_eq_drop_take (x : List ℚ) (st nPer : ℕ)
    (h : st + nPer ≤ x.length) :
    (List.range nPer).map (fun (i : ℕ) => x.getD (st + i) 0)
      = (x.drop st).take nPer := by
  apply List.ext_getElem
  · simp; omega
  · intro i h1 h2
    have hi : i < nPer := by simpa using h1
    have hin : st + i < x.length := by omega
    simp only [List.getElem_map, List.getElem_range, List.getElem_take,
      List.getElem_drop]
    rw [List.getD_eq_getElem?_getD, List.getElem?_eq_getElem hin]
    rfl

/-- C4 counterexample: with `fs = 51/4` and `epochSec = 2`
(`fs * epochSec = 25.5`), a 26-sample channel is split into one epoch of
`floor(25.5) = 25` samples, not the `round(25.5) = 26` samples the claim
prescribes. -/
theorem c4_counterexample :
    ((windowEpochs (List.replicate 26 (0 : ℚ)) (51/4) 2).getD 0 []).length = 25
      ∧ (round ((51/4 : ℚ) * 2)).toNat = 26 ∧ (25 : ℕ) ≠ 26 := by
  have hnper : (⌊(51/4 : ℚ) * 2⌋).toNat = 25 := by
    rw [show ⌊(51/4 : ℚ) * 2⌋ = 25 by norm_num]
    rfl
  refine ⟨?_, ?_, by omega⟩
  · unfold windowEpochs
    dsimp only
    rw [hnper]
    rw [getD_map_range _ (by simp)]
    simp
  · rw [show round ((51/4 : ℚ) * 2) = 26 by norm_num [round_eq]]
    rfl

/-- C4 (amended): for every channel `x` and rates with
`nPer = floor(fs * epochSec) ≥ 1`, the pipeline splits the channel into
`floor(length / nPer)` contiguous non-overlapping epochs of exactly
`nPer` samples, epoch `e` starting at sample `e * nPer`, and the
trailing remainder — strictly shorter than one epoch — is dropped, not
zero-padded. -/
theorem c4_window_epochs (x : List ℚ) (fs epochSec : ℚ)
    (h : 1 ≤ (⌊fs * epochSec⌋).toNat) :
    amendedWindowEpochsSpec x fs epochSec := by
  unfold amendedWindowEpochsSpec
  set nPer := (⌊fs * epochSec⌋).toNat with hnper
  have hpos : 0 < nPer := h
  have hlen : (windowEpochs x fs epochSec).length = x.length / nPer := by
    unfold windowEpochs
    dsimp only
    rw [List.length_map, List.length_range]
  have hrow : ∀ e < x.length / nPer,
      (windowEpochs x fs epochSec).getD e []
        = (x.drop (e * nPer)).take nPer := by
    intro e he
    have hbound : e * nPer + nPer ≤ x.length := by
      have h1 : e + 1 ≤ x.length / nPer := he
      have h2 : (e + 1) * nPer ≤ (x.length / nPer) * nPer :=
        Nat.mul_le_mul_right _ h1
      have h3 : (x.length / nPer) * nPer ≤ x.length := Nat.div_mul_le_self _ _
      calc e * nPer + nPer = (e + 1) * nPer := by ring
        _ ≤ (x.length / nPer) * nPer := h2
        _ ≤ x.length := h3
    unfold windowEpochs
    dsimp only
    rw [getD_map_range _ he]
    exact map_getD_range_eq_drop_take x _ _ hbound
  refine ⟨hlen, hrow, ?_, Nat.div_mul_le_self _ _, ?_⟩
  · intro e he
    rw [hrow e he]
    have hbound : e * nPer + nPer ≤ x.length := by
      have h1 : e + 1 ≤ x.length / nPer := he
      have h2 : (e + 1) * nPer ≤ (x.length / nPer) * nPer :=
        Nat.mul_le_mul_right _ h1
      have h3 : (x.length / nPer) * nPer ≤ x.length := Nat.div_mul_le_self _ _
      calc e * nPer + nPer = (e + 1) * nPer := by ring
        _ ≤ (x.length / nPer) * nPer := h2
        _ ≤ x.length := h3
    simp
    omega
  · have hm : x.length % nPer < nPer := Nat.mod_lt _ hpos
    have hdm : (x.length / nPer) * nPer + x.length % nPer = x.length := by
      rw [Nat.mul_comm]
      exact Nat.div_add_mod _ _
    calc x.length = (x.length / nPer) * nPer + x.length % nPer := hdm.symm
      _ < (x.length / nPer) * nPer + nPer := Nat.add_lt_add_left hm _
      _ = (x.length / nPer + 1) * nPer := by ring

/-- C4 witness: the amended epoching theorem applied to a 5-sample
channel at `fs = 2`, `epochSec = 1` (`nPer = 2`, two epochs, one sample
dropped). -/
theorem c4_witness :
    1 ≤ (⌊(2 : ℚ) * 1⌋).toNat
      ∧ amendedWindowEpochsSpec (List.replicate 5 (0 : ℚ)) 2 1 :=
  ⟨by norm_num, c4_window_epochs (List.replicate 5 (0 : ℚ)) 2 1 (by norm_num)⟩

/-- C5 witness: the amended truncated-data theorem applied to the
concrete truncated-buffer input. -/
theorem c5_witness :
    (edfHeaderBad (readNumberNorm edfInputC5.hbRaw)
          (readNumberNorm edfInputC5.durRaw) (readNumberNorm edfInputC5.nsRaw)
        = false
      ∧ 0 < edfInputC5.samplesPerRecord.length)
    ∧ (parseEdf edfInputC5).toOption.map
        (fun r => (r.channels.getD 0 ⟨"", 0, []⟩).samples)
      = some (edfSignalWrites edfInputC5 0
          ++ List.replicate
              (edfInputC5.samplesPerRecord.getD 0 0 * edfRecords edfInputC5
                - (edfSignalWrites edfInputC5 0).length) 0) :=
  ⟨⟨by decide, by decide⟩, c5_truncated_data edfInputC5 0 (by decide) (by decide)⟩

/-! ## Stable softmax (`src/sleep_bundle.js` `softmaxStable`,
`src/unnamed/part_004` `softmaxRow`)

Both functions scan for the row maximum (`softmaxStable` by a strict-`>`
update seeded with `logits[0]`, `softmaxRow` by `Math.max` seeded with
`-Infinity`); over `ℝ` both scans compute the same fold (junk `0` on an
empty list, where the JavaScript produces NaN). -/
def jsListMax : List ℝ → ℝ
  | [] => 0
  | v :: vs => vs.foldl max v

/-- The `softmaxStable(logits)` (`sleep_bundle.js` lines 25–38): subtract
the maximum, exponentiate, normalise by the sum (substituted by `1` when
`sum <= 0`). -/
noncomputable def softmaxStable (logits : List ℝ) : List ℝ :=
  let m := jsListMax logits
  let exps := logits.map (fun v => Real.exp (v - m))
  let sum := exps.sum
  let sum2 := if sum ≤ 0 then 1 else sum
  exps.map (fun e => e / sum2)

/-- The `softmaxRow(scores)` (`part_004` lines 16–28): same pipeline with
the `sum || 1` guard. -/
noncomputable def softmaxRow (scores : List ℝ) : List ℝ :=
  let maxv := jsListMax scores
  let exps := scores.map (fun v => Real.exp (v - maxv))
  let sum := exps.sum
  let sum2 := if sum = 0 then 1 else sum
  exps.map (fun e => e / sum2)

/-- Adding a constant to every entry commutes with the max fold. -/
theorem foldl_max_map_add (vs : List ℝ) :
    ∀ b c : ℝ, (vs.map (fun v => v + c)).foldl max (b + c)
      = vs.foldl max b + c := by
  induction vs with
  | nil => intro b c; rfl
  | cons a vs ih =>
    intro b c
    show (vs.map (fun v => v + c)).foldl max (max (b + c) (a + c))
        = vs.foldl max (max b a) + c
    rw [max_add_add_right]
    exact ih (max b a) c

/-- Adding a constant to every entry shifts the scanned maximum. -/
theorem jsListMax_map_add (l : List ℝ) (c : ℝ) (h : l ≠ []) :
    jsListMax (l.map (fun v => v + c)) = jsListMax l + c := by
  match l, h with
  | v :: vs, _ =>
    show (vs.map (fun v => v + c)).foldl max (v + c) = vs.foldl max v + c
    exact foldl_max_map_add vs v c

/-- The exponentials of a non-empty row have positive sum. -/
theorem exps_sum_pos (l : List ℝ) (m : ℝ) (h : l ≠ []) :
    0 < (l.map (fun v => Real.exp (v - m))).sum := by
  apply List.sum_pos
  · intro x hx
    simp only [List.mem_map] at hx
    obtain ⟨v, _, rfl⟩ := hx
    exact Real.exp_pos _
  · simpa using h

/-- Sum of a list divided elementwise by a constant. -/
theorem sum_map_div (l : List ℝ) (s : ℝ) :
    (l.map (fun e => e / s)).sum = l.sum / s := by
  induction l with
  | nil => simp
  | cons a l ih => simp [ih, add_div]

/-- C9: for every non-empty vector of (finite, real) logits and every
constant `c`, both softmax implementations return a probability vector —
non-negative entries summing to `1` within `1e-9` (exactly `1` in exact
real arithmetic) — and are invariant under adding `c` to every input. -/
theorem c9_softmax (logits : List ℝ) (h : logits ≠ []) (c : ℝ) :
    |(softmaxStable logits).sum - 1| ≤ 1e-9
    ∧ (∀ p ∈ softmaxStable logits, 0 ≤ p)
    ∧ softmaxStable (logits.map (fun v => v + c)) = softmaxStable logits
    ∧ |(softmaxRow logits).sum - 1| ≤ 1e-9
    ∧ (∀ p ∈ softmaxRow logits, 0 ≤ p)
    ∧ softmaxRow (logits.map (fun v => v + c)) = softmaxRow logits := by
  have hpos := exps_sum_pos logits (jsListMax logits) h
  have hshift : (logits.map (fun v => v + c)).map
        (fun v => Real.exp (v - jsListMax (logits.map (fun v => v + c))))
      = logits.map (fun v => Real.exp (v - jsListMax logits)) := by
    rw [jsListMax_map_add logits c h, List.map_map]
    apply List.map_congr_left
    intro v _
    simp only [Function.comp_apply]
    ring_nf
  refine ⟨?_, ?_, ?_, ?_, ?_, ?_⟩
  · unfold softmaxStable
    dsimp only
    rw [if_neg (by linarith), sum_map_div, div_self (ne_of_gt hpos)]
    norm_num
  · unfold softmaxStable
    dsimp only
    intro p hp
    simp only [List.mem_map] at hp
    obtain ⟨e, ⟨v, _, rfl⟩, rfl⟩ := hp
    have h2 : (0:ℝ) < if (logits.map (fun v => Real.exp (v - jsListMax logits))).sum ≤ 0
        then 1 else (logits.map (fun v => Real.exp (v - jsListMax logits))).sum := by
      rw [if_neg (by linarith)]
      exact hpos
    positivity
  · unfold softmaxStable
    dsimp only
    rw [hshift]
  · unfold softmaxRow
    dsimp only
    rw [if_neg (ne_of_gt hpos), sum_map_div, div_self (ne_of_gt hpos)]
    norm_num
  · unfold softmaxRow
    dsimp only
    intro p hp
    simp only [List.mem_map] at hp
    obtain ⟨e, ⟨v, _, rfl⟩, rfl⟩ := hp
    have h2 : (0:ℝ) < if (logits.map (fun v => Real.exp (v - jsListMax logits))).sum = 0
        then 1 else (logits.map (fun v => Real.exp (v - jsListMax logits))).sum := by
      rw [if_neg (ne_of_gt hpos)]
      exact hpos
    positivity
  · unfold softmaxRow
    dsimp only
    rw [hshift]

/-- C9 witness: the softmax theorem applied to the one-logit vector
`[0]` and shift `1`. -/
theorem c9_witness :
    ([(0 : ℝ)] ≠ [])
    ∧ (|(softmaxStable [(0 : ℝ)]).sum - 1| ≤ 1e-9
      ∧ (∀ p ∈ softmaxStable [(0 : ℝ)], 0 ≤ p)
      ∧ softmaxStable ([(0 : ℝ)].map (fun v => v + 1)) = softmaxStable [(0 : ℝ)]
      ∧ |(softmaxRow [(0 : ℝ)]).sum - 1| ≤ 1e-9
      ∧ (∀ p ∈ softmaxRow [(0 : ℝ)], 0 ≤ p)
      ∧ softmaxRow ([(0 : ℝ)].map (fun v => v + 1)) = softmaxRow [(0 : ℝ)]) :=
  ⟨by simp, c9_softmax [0] (by simp) 1⟩

/-! ## Linear-classifier prediction (`src/sleep_bundle.js` `MODEL` and
`predictFromFeatures`; `src/suspense/sleep_stage.js` carries the same
function body over the same embedded model)

The thrown `Missing/non-finite feature: ${k}=${v}` error is modelled as
`Except.error k` carrying the offending feature name. -/
def modelLabels : List String := ["W", "N1", "N2", "N3", "REM"]

def modelFeatureOrder : List String :=
  ["log_delta", "log_theta", "log_alpha", "log_sigma", "log_beta",
   "log_delta_over_beta", "log_sigma_over_theta", "log_thetaalpha_over_beta",
   "sef95", "spec_entropy", "rms", "zero_cross_rate"]

noncomputable def modelMeans : List ℝ :=
  [-22.331802368164062, -24.397289276123047, -25.743223190307617,
   -26.402225494384766, -26.546798706054688, 4.214993476867676,
   -2.0049359798431396, 2.361865520477295, 8.007974624633789,
   2.9092788696289062, 2.0313264030846767e-05, 0.0842948630452156]

noncomputable def modelStds : List ℝ :=
  [1.1829572916030884, 0.4911311864852905, 0.3490687608718872,
   0.5115553140640259, 0.3959295451641083, 1.306697964668274,
   0.5387573838233948, 0.6098589897155762, 3.4724528789520264,
   0.45556798577308655, 1.0178369848290458e-05, 0.03330378606915474]

noncomputable def modelW : List (List ℝ) :=
  [[-0.004339134320616722, -1.0512455701828003, 1.3466871976852417,
    -2.047595739364624, 0.3612864911556244, -0.11339738219976425,
    -0.9858927726745605, -0.22838787734508514, 0.3611123561859131,
    0.40840476751327515, 2.2276034355163574, 1.3095165491104126],
   [-0.5634723901748657, -0.2682851254940033, -0.41918861865997314,
    -0.6458674073219299, 0.6761465072631836, -0.7149838805198669,
    -0.3686991333961487, -0.612909197807312, 0.09402799606323242,
    0.4628537893295288, -0.31794998049736023, 0.821704089641571],
   [0.131379172205925, 0.42400917410850525, -0.6424850225448608,
    1.709810495376587, -0.21408069133758545, 0.1838100403547287,
    1.2369418144226074, 0.2835305631160736, -0.1886923462152481,
    0.41069328784942627, -1.1122334003448486, -0.421636164188385],
   [1.9268707036972046, 0.8673789501190186, 0.40017154812812805,
    1.579830527305603, -0.1699422150850296, 1.7958862781524658,
    0.7093647122383118, 0.8379111289978027, -1.0912206172943115,
    -0.3058040142059326, 0.4472958445549011, -1.7302284240722656],
   [-1.4904383420944214, 0.028142597526311874, -0.6851851344108582,
    -0.5961777567863464, -0.6534100770950317, -1.1513150930404663,
    -0.5917145609855652, -0.2801446318626404, 0.8247725963592529,
    -0.9761478900909424, -1.244715929031372, 0.020643945783376694]]

noncomputable def modelB : List ℝ :=
  [-1.2508232593536377, -1.232494831085205, 3.9400134086608887,
   -0.7978888154029846, -0.658806562423706]

/-- The result record of `predictFromFeatures`. -/
structure PredOut where
  predId : ℕ
  predLabel : String
  probs : List ℝ
  logits : List ℝ

/-- The `featuresByName[k]`: association-list lookup, `undefined` when the
property is absent. -/
def lookupFeat (feats : List (String × JSNum)) (k : String) : JSNum :=
  match feats.lookup k with
  | none => JSNum.undef
  | some v => v

/-- The packing/standardisation loop of `predictFromFeatures`: walk the
feature order, throw (`Except.error k`) at the first feature whose value
is missing or non-finite, otherwise standardise it by
`(v - mean) / (std || 1)`. -/
noncomputable def packStandardize (feats : List (String × JSNum)) :
    List (String × ℝ × ℝ) → Except String (List ℝ)
  | [] => .ok []
  | (k, ms) :: rest =>
    let v := lookupFeat feats k
    if v.isFinite then
      match packStandardize feats rest with
      | .ok xs => .ok ((((v.toQ : ℚ) : ℝ) - ms.1) / (if ms.2 = 0 then 1 else ms.2) :: xs)
      | .error e => .error e
    else .error k

/-- The first-maximum scan `if (probs[i] > probs[best]) best = i` /
`if (v > bestVal)`: carries the best value, its index, and the current
index. -/
noncomputable def jsFirstMaxAux : ℝ → ℕ → ℕ → List ℝ → ℝ × ℕ
  | best, bi, _, [] => (best, bi)
  | best, bi, i, v :: vs =>
    if best < v then jsFirstMaxAux v i (i + 1) vs
    else jsFirstMaxAux best bi (i + 1) vs

/-- First maximum (value and lowest attaining index) of a list, seeded
with the head as the JavaScript scans are ([] gives junk `(0, 0)`). -/
noncomputable def jsFirstMax : List ℝ → ℝ × ℕ
  | [] => (0, 0)
  | v :: vs => jsFirstMaxAux v 0 1 vs

/-- The `predictFromFeatures(featuresByName)` (`sleep_bundle.js` lines
40–60): pack and standardise the features in model order (throwing on a
missing/non-finite one), apply the per-class linear layer
`b[c] + W[c]·x`, the stable softmax, and a first-seen argmax. -/
noncomputable def predictFromFeatures (feats : List (String × JSNum)) :
    Except String PredOut :=
  match packStandardize feats (modelFeatureOrder.zip (modelMeans.zip modelStds)) with
  | .error e => .error e
  | .ok x =>
    let logits := (modelW.zip modelB).map
      (fun rb => rb.2 + ((rb.1.zip x).map (fun p => p.1 * p.2)).sum)
    let probs := softmaxStable logits
    let best := (jsFirstMax probs).2
    .ok ⟨best, modelLabels.getD best "", probs, logits⟩

/-- The `packStandardize` succeeds iff every named feature is present and
finite. -/
theorem packStandardize_isOk_iff (feats : List (String × JSNum))
    (triples : List (String × ℝ × ℝ)) :
    (∃ xs, packStandardize feats triples = .ok xs)
      ↔ ∀ p ∈ triples, (lookupFeat feats p.1).isFinite = true := by
  induction triples with
  | nil => simp [packStandardize]
  | cons p rest ih =>
    obtain ⟨k, ms⟩ := p
    unfold packStandardize
    dsimp only
    by_cases hf : (lookupFeat feats k).isFinite = true
    · rw [if_pos hf]
      constructor
      · intro ⟨xs, hxs⟩
        intro q hq
        rcases List.mem_cons.mp hq with hq | hq
        · subst hq; exact hf
        · rcases hxs' : packStandardize feats rest with e | ys
          · rw [hxs'] at hxs; exact absurd hxs (by simp)
          · exact (ih.mp ⟨ys, hxs'⟩) q hq
      · intro hall
        obtain ⟨ys, hys⟩ := ih.mpr (fun q hq => hall q (List.mem_cons_of_mem _ hq))
        exact ⟨_, by rw [hys]⟩
    · rw [if_neg hf]
      constructor
      · intro ⟨xs, hxs⟩; exact absurd hxs (by simp)
      · intro hall
        exact absurd (hall (k, ms) (List.mem_cons_self _ _)) hf

/-- A `packStandardize` error names a feature of the walked list whose
value is missing or non-finite. -/
theorem packStandardize_error (feats : List (String × JSNum))
    (triples : List (String × ℝ × ℝ)) (e : String) :
    packStandardize feats triples = .error e →
      e ∈ triples.map Prod.fst ∧ (lookupFeat feats e).isFinite = false := by
  induction triples with
  | nil => intro h; exact absurd h (by simp [packStandardize])
  | cons p rest ih =>
    obtain ⟨k, ms⟩ := p
    unfold packStandardize
    dsimp only
    by_cases hf : (lookupFeat feats k).isFinite = true
    · rw [if_pos hf]
      rcases hxs' : packStandardize feats rest with e' | ys
      · intro h
        have he : e' = e := by
          by_contra hne
          exact hne (by injection h)
        subst he
        obtain ⟨h1, h2⟩ := ih hxs'
        exact ⟨List.mem_cons_of_mem _ h1, h2⟩
      · intro h; exact absurd h (by simp)
    · rw [if_neg hf]
      intro h
      have he : k = e := by injection h
      subst he
      exact ⟨List.mem_cons_self _ _, by simpa using hf⟩

/-- The walked triples of `predictFromFeatures` project to the model's
feature order. -/
theorem modelTriples_fst :
    (modelFeatureOrder.zip (modelMeans.zip modelStds)).map Prod.fst
      = modelFeatureOrder := rfl

/-- C8: for every supplied feature map, `predictFromFeatures` produces
a prediction (probabilities included) iff every feature named in the
model's feature order is present and finite; otherwise it throws — no
probability vector is produced — and the error identifies an offending
(missing or non-finite) feature of the feature order. -/
theorem c8_predict_missing_feature (feats : List (String × JSNum)) :
    ((∃ out, predictFromFeatures feats = .ok out)
      ↔ ∀ k ∈ modelFeatureOrder, (lookupFeat feats k).isFinite = true)
    ∧ ∀ e, predictFromFeatures feats = .error e →
        e ∈ modelFeatureOrder ∧ (lookupFeat feats e).isFinite = false := by
  constructor
  · rw [← modelTriples_fst]
    constructor
    · intro ⟨out, hout⟩ k hk
      unfold predictFromFeatures at hout
      rcases hpack : packStandardize feats
          (modelFeatureOrder.zip (modelMeans.zip modelStds)) with e | xs
      · rw [hpack] at hout; exact absurd hout (by simp)
      · obtain ⟨p, hp, rfl⟩ := List.mem_map.mp hk
        exact (packStandardize_isOk_iff feats _).mp ⟨xs, hpack⟩ p hp
    · intro hall
      have hall' : ∀ p ∈ modelFeatureOrder.zip (modelMeans.zip modelStds),
          (lookupFeat feats p.1).isFinite = true := by
        intro p hp
        exact hall p.1 (List.mem_map.mpr ⟨p, hp, rfl⟩)
      obtain ⟨xs, hxs⟩ := (packStandardize_isOk_iff feats _).mpr hall'
      unfold predictFromFeatures
      rw [hxs]
      exact ⟨_, rfl⟩
  · intro e he
    unfold predictFromFeatures at he
    rcases hpack : packStandardize feats
        (modelFeatureOrder.zip (modelMeans.zip modelStds)) with e' | xs
    · rw [hpack] at he
      have : e' = e := by injection he
      subst this
      have := packStandardize_error feats _ _ hpack
      rwa [modelTriples_fst] at this
    · rw [hpack] at he; exact absurd he (by simp)

/-- C8 witness: on the empty feature map the predictor throws, naming
the first feature of the model order (`"log_delta"`), which the claim
theorem certifies as an offending feature. -/
theorem c8_witness :
    predictFromFeatures [] = .error "log_delta"
    ∧ ("log_delta" ∈ modelFeatureOrder
      ∧ (lookupFeat [] "log_delta").isFinite = false) := by
  have herr : predictFromFeatures [] = .error "log_delta" := rfl
  exact ⟨herr, (c8_predict_missing_feature []).2 "log_delta" herr⟩

/-! ## Radix-2 FFT and Welch PSD
(`src/yasa/yasa_dsp.js`: `nextPow2`, `fftRadix2`, `rfftOneSidedPxx`;
`src/sleep_stage_features.js` / `src/sleep_bundle.js`: `nextPow2`,
`hannWindow`, `fftRadix2Real`, `welchPsd` — the latter two files carry
the same text)

The in-place array mutations are modelled by `List.set` folds; the two
FFT cores share the bit-reversal pass but differ in how they obtain the
twiddle factors (`fftRadix2Real` evaluates `cos`/`sin` per butterfly,
`fftRadix2` updates them multiplicatively), which is preserved here. -/

/-- The `nextPow2` loop body: double `p` while `p < n`. -/
def nextPow2Aux (n p : ℕ) : ℕ :=
  if h : 0 < p ∧ p < n then nextPow2Aux n (2 * p) else p
termination_by n - p
decreasing_by omega

/-- The `nextPow2(n)`: smallest power of two `≥ n` (and `≥ 1`). -/
def nextPow2 (n : ℕ) : ℕ := nextPow2Aux n 1

/-- The `nextPow2Aux` keeps the seed or reaches an even value. -/
theorem nextPow2Aux_one_or_even (n p : ℕ) :
    nextPow2Aux n p = p ∨ 2 ∣ nextPow2Aux n p := by
  by_cases h : 0 < p ∧ p < n
  · rw [nextPow2Aux, dif_pos h]
    rcases nextPow2Aux_one_or_even n (2 * p) with h1 | h1
    · right; rw [h1]; exact ⟨p, by ring⟩
    · right; exact h1
  · rw [nextPow2Aux, dif_neg h]
    left; rfl
termination_by n - p
decreasing_by omega

/-- The `nextPow2 n` is `1` or even. -/
theorem nextPow2_one_or_even (n : ℕ) : nextPow2 n = 1 ∨ 2 ∣ nextPow2 n :=
  nextPow2Aux_one_or_even n 1

/-- The bit-reversal cursor update
`let m = n >> 1; while (m >= 1 && j >= m) { j -= m; m >>= 1; } j += m`. -/
def advRev (j m : ℕ) : ℕ :=
  if h : 1 ≤ m ∧ m ≤ j then advRev (j - m) (m / 2) else j + m
termination_by m
decreasing_by omega

/-- The bit-reversal permutation pass shared by both FFT cores:
conditionally swap `re[i]/re[j]` and `im[i]/im[j]` while advancing the
mirrored counter `j`. -/
def bitRevPass (re0 im0 : List ℝ) : List ℝ × List ℝ :=
  let n := re0.length
  ((List.range n).foldl
    (fun (st : (List ℝ × List ℝ) × ℕ) (i : ℕ) =>
      let re := st.1.1
      let im := st.1.2
      let j := st.2
      let swapped :=
        if i < j then
          ((re.set i (re.getD j 0)).set j (re.getD i 0),
           (im.set i (im.getD j 0)).set j (im.getD i 0))
        else (re, im)
      (swapped, advRev j (n / 2)))
    ((re0, im0), 0)).1

/-- The butterfly stage sizes `2, 4, …, n`. -/
def sizesFrom (size n : ℕ) : List ℕ :=
  if h : 2 ≤ size ∧ size ≤ n then size :: sizesFrom (2 * size) n else []
termination_by n + 1 - size
decreasing_by omega

/-- The group base indices `0, size, 2·size, … < n`. -/
def stepIdx (n step i : ℕ) : List ℕ :=
  if h : i < n ∧ 0 < step then i :: stepIdx n step (i + step) else []
termination_by n - i
decreasing_by omega

/-- One butterfly of `fftRadix2Real` (`sleep_stage_features.js` lines
110–159): twiddle `cos/sin(-2πk/size)` computed per `k`. -/
noncomputable def butterflyDirect (size i k : ℕ) (st : List ℝ × List ℝ) :
    List ℝ × List ℝ :=
  let half := size / 2
  let angle : ℝ := -((2 * Real.pi) / (size : ℝ)) * (k : ℝ)
  let wr := Real.cos angle
  let wi := Real.sin angle
  let re := st.1
  let im := st.2
  let evenRe := re.getD (i + k) 0
  let evenIm := im.getD (i + k) 0
  let oddRe := re.getD (i + k + half) 0
  let oddIm := im.getD (i + k + half) 0
  let tr := wr * oddRe - wi * oddIm
  let ti := wr * oddIm + wi * oddRe
  ((re.set (i + k) (evenRe + tr)).set (i + k + half) (evenRe - tr),
   (im.set (i + k) (evenIm + ti)).set (i + k + half) (evenIm - ti))

/-- The `fftRadix2Real(x, nfft)`: copy/zero-pad the real input, bit-reverse,
then run the direct-twiddle butterfly stages. -/
noncomputable def fftRadix2Real (x : List ℝ) (nfft : ℕ) : List ℝ × List ℝ :=
  let n := min x.length nfft
  let re := (List.range nfft).map (fun i => if i < n then x.getD i 0 else 0)
  let im := List.replicate nfft (0 : ℝ)
  (sizesFrom 2 nfft).foldl
    (fun st size =>
      (stepIdx nfft size 0).foldl
        (fun st i =>
          (List.range (size / 2)).foldl
            (fun st k => butterflyDirect size i k st) st)
        st)
    (bitRevPass re im)

/-- One butterfly group of `fftRadix2` (`yasa_dsp.js` lines 51–91): the
twiddle `(wRe, wIm)` starts at `(1, 0)` and is updated multiplicatively
by `(cos, sin)(-2π/size)` after each butterfly. -/
noncomputable def butterflyGroupInc (size i : ℕ) (st : List ℝ × List ℝ) :
    List ℝ × List ℝ :=
  let half := size / 2
  let wlenRe := Real.cos (-2 * Real.pi / (size : ℝ))
  let wlenIm := Real.sin (-2 * Real.pi / (size : ℝ))
  ((List.range half).foldl
    (fun (q : (List ℝ × List ℝ) × ℝ × ℝ) (k : ℕ) =>
      let re := q.1.1
      let im := q.1.2
      let wRe := q.2.1
      let wIm := q.2.2
      let uRe := re.getD (i + k) 0
      let uIm := im.getD (i + k) 0
      let vr := re.getD (i + k + half) 0
      let vi := im.getD (i + k + half) 0
      let vRe := vr * wRe - vi * wIm
      let vIm := vr * wIm + vi * wRe
      let re2 := (re.set (i + k) (uRe + vRe)).set (i + k + half) (uRe - vRe)
      let im2 := (im.set (i + k) (uIm + vIm)).set (i + k + half) (uIm - vIm)
      ((re2, im2), (wRe * wlenRe - wIm * wlenIm, wRe * wlenIm + wIm * wlenRe)))
    ((st.1, st.2), (1, 0))).1

/-- The `fftRadix2(re, im)` (`yasa_dsp.js`): in-place radix-2 FFT with
incremental twiddles, on arrays of length `n = re.length`. -/
noncomputable def fftRadix2 (re0 im0 : List ℝ) : List ℝ × List ℝ :=
  let n := re0.length
  (sizesFrom 2 n).foldl
    (fun st size =>
      (stepIdx n size 0).foldl (fun st i => butterflyGroupInc size i st) st)
    (bitRevPass re0 im0)

/-- The pre-FFT buffer of one Welch segment in `rfftOneSidedPxx`
(lines 100–106): subtract the segment mean, multiply by the window
pointwise, zero-pad to `nfft` (the `n || 1` mean guard is kept). -/
noncomputable def welchSegmentInput (x win : List ℝ) (nfft : ℕ) : List ℝ :=
  let n := x.length
  let mu := x.sum / (if n = 0 then (1 : ℝ) else (n : ℝ))
  (List.range nfft).map (fun i =>
    if i < n then (x.getD i 0 - mu) * win.getD i 0 else 0)

/-- The `rfftOneSidedPxx(x, fs, win, nfft)` (`yasa_dsp.js` lines 95–132):
FFT the mean-removed, windowed, zero-padded segment and scale each
one-sided bin by `1 / (fs * Σ win²)` (window power over the segment
length, `|| 1` guard), doubling all bins but DC and Nyquist
(`k !== nfft / 2` over real division is `2 * k ≠ nfft`). -/
noncomputable def rfftOneSidedPxx (x : List ℝ) (fs : ℚ) (win : List ℝ)
    (nfft : ℕ) : List ℝ × List ℝ :=
  let n := x.length
  let fft := fftRadix2 (welchSegmentInput x win nfft) (List.replicate nfft 0)
  let nOut := nfft / 2 + 1
  let winPow0 := ((win.take n).map (fun w => w * w)).sum
  let winPow := if winPow0 = 0 then (1 : ℝ) else winPow0
  let scale := 1 / ((fs : ℝ) * winPow)
  let freqs := (List.range nOut).map
    (fun (k : ℕ) => ((k : ℝ) * (fs : ℝ)) / (nfft : ℝ))
  let pxx := (List.range nOut).map (fun k =>
    let mag2 := fft.1.getD k 0 * fft.1.getD k 0 + fft.2.getD k 0 * fft.2.getD k 0
    let v := mag2 * scale
    if k ≠ 0 ∧ 2 * k ≠ nfft then 2 * v else v)
  (freqs, pxx)

/-- C7: for every Welch segment `x` with window `win`, sampling rate
`fs`, and FFT length `nfft` equal to the next power of two at or above
the segment length, with non-degenerate window power: every one-sided
bin `k` of `rfftOneSidedPxx` carries the density
`|X[k]|² / (fs · Σ win²)` — where `X` is the FFT of the mean-removed,
windowed, zero-padded segment (`welchSegmentInput`) — doubled for every
bin except DC (`k = 0`) and Nyquist (`k = nfft / 2`). -/
theorem c7_welch_segment_density (x : List ℝ) (fs : ℚ) (win : List ℝ)
    (nfft : ℕ) (hn : nfft = nextPow2 x.length)
    (hw : ((win.take x.length).map (fun w => w * w)).sum ≠ 0)
    (k : ℕ) (hk : k < nfft / 2 + 1) :
    (rfftOneSidedPxx x fs win nfft).2.getD k 0
      = (if k = 0 ∨ k = nfft / 2 then 1 else 2)
        * ((fftRadix2 (welchSegmentInput x win nfft)
              (List.replicate nfft 0)).1.getD k 0
            * (fftRadix2 (welchSegmentInput x win nfft)
              (List.replicate nfft 0)).1.getD k 0
          + (fftRadix2 (welchSegmentInput x win nfft)
              (List.replicate nfft 0)).2.getD k 0
            * (fftRadix2 (welchSegmentInput x win nfft)
              (List.replicate nfft 0)).2.getD k 0)
        / ((fs : ℝ) * ((win.take x.length).map (fun w => w * w)).sum) := by
  unfold rfftOneSidedPxx
  dsimp only
  rw [getD_map_range _ hk]
  rw [if_neg hw]
  have hcond : (k ≠ 0 ∧ 2 * k ≠ nfft) ↔ ¬(k = 0 ∨ k = nfft / 2) := by
    rcases nextPow2_one_or_even x.length with h1 | h1
    · rw [← hn] at h1
      subst h1
      interval_cases k <;> simp
    · rw [← hn] at h1
      obtain ⟨m, rfl⟩ := h1
      constructor
      · rintro ⟨hk0, hk2⟩ (h | h)
        · exact hk0 h
        · apply hk2
          omega
      · intro h
        push_neg at h
        exact ⟨h.1, by omega⟩
  by_cases hc : k = 0 ∨ k = nfft / 2
  · rw [if_neg (by rw [hcond]; exact fun hcc => hcc hc), if_pos hc]
    ring
  · rw [if_pos (hcond.mpr hc), if_neg hc]
    ring

/-- The `nextPow2 2 = 2` (two unfoldings of the doubling loop). -/
theorem nextPow2_two : nextPow2 2 = 2 := by
  unfold nextPow2
  rw [nextPow2Aux, dif_pos (by omega), show 2 * 1 = 2 from rfl,
    nextPow2Aux, dif_neg (by omega)]

/-- C7 witness: the per-bin density theorem at the two-sample segment
`[1, 2]`, unit window `[1, 1]`, `fs = 1`, `nfft = nextPow2 2 = 2`,
bin `k = 1`. -/
theorem c7_witness :
    (2 = nextPow2 ([(1 : ℝ), 2]).length
      ∧ ((([(1 : ℝ), 1]).take ([(1 : ℝ), 2]).length).map
          (fun w => w * w)).sum ≠ 0
      ∧ 1 < 2 / 2 + 1)
    ∧ (rfftOneSidedPxx [(1 : ℝ), 2] 1 [(1 : ℝ), 1] 2).2.getD 1 0
      = (if 1 = 0 ∨ 1 = 2 / 2 then 1 else 2)
        * ((fftRadix2 (welchSegmentInput [(1 : ℝ), 2] [(1 : ℝ), 1] 2)
              (List.replicate 2 0)).1.getD 1 0
            * (fftRadix2 (welchSegmentInput [(1 : ℝ), 2] [(1 : ℝ), 1] 2)
              (List.replicate 2 0)).1.getD 1 0
          + (fftRadix2 (welchSegmentInput [(1 : ℝ), 2] [(1 : ℝ), 1] 2)
              (List.replicate 2 0)).2.getD 1 0
            * (fftRadix2 (welchSegmentInput [(1 : ℝ), 2] [(1 : ℝ), 1] 2)
              (List.replicate 2 0)).2.getD 1 0)
        / ((1 : ℚ) * ((([(1 : ℝ), 1]).take ([(1 : ℝ), 2]).length).map
            (fun w => w * w)).sum) :=
  ⟨⟨nextPow2_two.symm, by norm_num, by norm_num⟩,
    c7_welch_segment_density [1, 2] 1 [1, 1] 2
      nextPow2_two.symm (by norm_num) 1 (by norm_num)⟩

/-- The `hannWindow(N)` (`sleep_stage_features.js` lines 101–108):
`0.5 - 0.5·cos(2πn / (N-1))`.  (For `N = 1` the JavaScript divides by
zero and yields NaN; over `ℝ`, division by zero yields `0`.  Callers
always pass `N ≥ 32`.) -/
noncomputable def hannWindow (N : ℕ) : List ℝ :=
  (List.range N).map (fun (n : ℕ) =>
    0.5 - 0.5 * Real.cos ((2 * Real.pi * (n : ℝ)) / ((N : ℝ) - 1)))

/-- The Welch segment starts
`for (start = 0; start + nperseg <= len; start += step)`.  (The guard
`0 < step` reflects that the source's `step = Math.max(1, …)` is always
positive; with `step = 0` the JavaScript loop would never terminate.) -/
def welchSegStarts (len nperseg step start : ℕ) : List ℕ :=
  if h : start + nperseg ≤ len ∧ 0 < step then
    start :: welchSegStarts len nperseg step (start + step)
  else []
termination_by len + 1 - start
decreasing_by omega

/-- The `welchPsd(epoch, fs)` (`sleep_stage_features.js` lines 145–210 and
the identical copy in `sleep_bundle.js` lines 229–294): Hann-windowed,
mean-removed, zero-padded segments of `nperseg = max(32, round(4·fs))`
samples with 50% overlap; per bin, `|X|²/(fs·Σw²)` doubled off
DC/Nyquist, accumulated over segments and averaged; with *no* complete
segment, both outputs fall back to all-zero arrays of the same
length. -/
noncomputable def welchPsd (epoch : List ℝ) (fs : ℚ) : List ℝ × List ℝ :=
  let nperseg := max 32 (round ((4 : ℚ) * fs)).toNat
  let noverlap := nperseg / 2
  let step := max 1 (nperseg - noverlap)
  let nfft := nextPow2 nperseg
  let window := hannWindow nperseg
  let w2sum := (window.map (fun w => w * w)).sum
  let nBins := nfft / 2 + 1
  let starts := welchSegStarts epoch.length nperseg step 0
  let segBins := fun (start : ℕ) =>
    let mean := ((epoch.drop start).take nperseg).sum / (nperseg : ℝ)
    let seg := (List.range nperseg).map
      (fun i => (epoch.getD (start + i) 0 - mean) * window.getD i 0)
    let fft := fftRadix2Real seg nfft
    (List.range nBins).map (fun k =>
      let p := fft.1.getD k 0 * fft.1.getD k 0 + fft.2.getD k 0 * fft.2.getD k 0
      let p2 := p / ((fs : ℝ) * w2sum)
      if k ≠ 0 ∧ 2 * k ≠ nfft then 2 * p2 else p2)
  let psdAcc := starts.foldl
    (fun acc st => List.zipWith (· + ·) acc (segBins st))
    (List.replicate nBins 0)
  let nSeg := starts.length
  if nSeg = 0 then (List.replicate nBins 0, List.replicate nBins 0)
  else
    ((List.range nBins).map (fun (k : ℕ) => ((k : ℝ) * (fs : ℝ)) / (nfft : ℝ)),
     (List.range nBins).map (fun k => psdAcc.getD k 0 / (nSeg : ℝ)))

/-- The totality/fallback behaviour claim C10 states for `welchPsd`
(which, as a total function, never throws): both returned arrays always
have length `floor(nfft/2) + 1`, and when the epoch is shorter than one
segment both are all-zero. -/
def welchPsdTotalSpec (epoch : List ℝ) (fs : ℚ) : Prop :=
  let nperseg := max 32 (round ((4 : ℚ) * fs)).toNat
  let nBins := nextPow2 nperseg / 2 + 1
  (welchPsd epoch fs).1.length = nBins
  ∧ (welchPsd epoch fs).2.length = nBins
  ∧ (epoch.length < nperseg →
      welchPsd epoch fs = (List.replicate nBins 0, List.replicate nBins 0))

/-- C10: for every input epoch and positive sampling rate, the
linear-path Welch estimator is total and returns `freqs`/`psd` lists of
length `floor(nfft/2) + 1`; when the epoch holds fewer than `nperseg`
samples (no complete segment), both are all-zero rather than an
error. -/
theorem c10_welch_total (epoch : List ℝ) (fs : ℚ) (hfs : 0 < fs) :
    welchPsdTotalSpec epoch fs := by
  unfold welchPsdTotalSpec
  refine ⟨?_, ?_, ?_⟩
  · unfold welchPsd
    dsimp only
    split
    · simp
    · simp
  · unfold welchPsd
    dsimp only
    split
    · simp
    · simp
  · intro hshort
    unfold welchPsd
    dsimp only
    have hempty : welchSegStarts epoch.length
        (max 32 (round ((4 : ℚ) * fs)).toNat)
        (max 1 (max 32 (round ((4 : ℚ) * fs)).toNat
          - max 32 (round ((4 : ℚ) * fs)).toNat / 2)) 0 = [] := by
      rw [welchSegStarts, dif_neg (by omega)]
    rw [hempty]
    simp

/-- C10 witness: the totality theorem applied to the empty epoch at
`fs = 1`, where no complete segment fits, so the zero-array fallback is
taken. -/
theorem c10_witness :
    (0 < (1 : ℚ) ∧ ([] : List ℝ).length < max 32 (round ((4 : ℚ) * 1)).toNat)
    ∧ welchPsdTotalSpec [] 1
    ∧ welchPsd [] 1
      = (List.replicate (nextPow2 (max 32 (round ((4 : ℚ) * 1)).toNat) / 2 + 1) 0,
         List.replicate (nextPow2 (max 32 (round ((4 : ℚ) * 1)).toNat) / 2 + 1) 0) := by
  have hlen : ([] : List ℝ).length < max 32 (round ((4 : ℚ) * 1)).toNat :=
    lt_of_lt_of_le (by norm_num) (le_max_left 32 _)
  have h := c10_welch_total [] 1 (by norm_num)
  refine ⟨⟨by norm_num, hlen⟩, h, ?_⟩
  have h' := h
  unfold welchPsdTotalSpec at h'
  exact h'.2.2 hlen

/-! ## Viterbi smoothing (`src/sleep_bundle.js` `viterbiSmoothSleepStages`,
lines 692–760)

The transition matrix `A` and prior `pi` are the hand-tuned constants of
the source.  `dp`/`back` rows are built per time step; the strict-`>`
scans over predecessors and over the last row are `jsFirstMax`. -/
def vitEps : ℝ := 1e-12

noncomputable def vitA : List (List ℝ) :=
  [[0.94, 0.05, 0.009, 0.0005, 0.0005],
   [0.08, 0.84, 0.07, 0.005, 0.005],
   [0.02, 0.08, 0.86, 0.03, 0.01],
   [0.005, 0.01, 0.08, 0.90, 0.005],
   [0.06, 0.03, 0.08, 0.005, 0.825]]

noncomputable def vitPi : List ℝ := [0.90, 0.08, 0.02, 0.0, 0.0]

/-- The `logA = A.map(row => row.map(p => log(max(p, eps))))`. -/
noncomputable def vitLogA : List (List ℝ) :=
  vitA.map (List.map (fun p => Real.log (max p vitEps)))

/-- The `logPi = pi.map(p => log(max(p, eps)))`. -/
noncomputable def vitLogPi : List ℝ :=
  vitPi.map (fun p => Real.log (max p vitEps))

/-- The clamped emission log `log(max(probs[t][k] ?? 0, eps))`. -/
noncomputable def vitE (probs : List (List ℝ)) (t k : ℕ) : ℝ :=
  Real.log (max ((probs.getD t []).getD k 0) vitEps)

/-- The first dp row `dp[0][k] = logPi[k] + log(max(probs[0][k] ?? 0, eps))`. -/
noncomputable def vitDp0 (probs : List (List ℝ)) (K : ℕ) : List ℝ :=
  (List.range K).map (fun k => vitLogPi.getD k 0 + vitE probs 0 k)

/-- The predecessor candidates `dp[t-1][j] + logA[j][k]` for `j < K`. -/
noncomputable def vitCands (dpPrev : List ℝ) (k K : ℕ) : List ℝ :=
  (List.range K).map (fun j => dpPrev.getD j 0 + (vitLogA.getD j []).getD k 0)

/-- One forward step: the new dp row (best predecessor value plus
emission) and the back-pointer row (best predecessor index). -/
noncomputable def vitStep (probs : List (List ℝ)) (t K : ℕ)
    (dpPrev : List ℝ) : List ℝ × List ℕ :=
  ((List.range K).map
      (fun k => (jsFirstMax (vitCands dpPrev k K)).1 + vitE probs t k),
   (List.range K).map (fun k => (jsFirstMax (vitCands dpPrev k K)).2))

/-- The forward pass for `t = 1 .. T-1`, carrying the latest dp row and
accumulating the back-pointer rows (`back[0][k] = 0`). -/
noncomputable def vitForward (probs : List (List ℝ)) (K T : ℕ) :
    List ℝ × List (List ℕ) :=
  (List.range (T - 1)).foldl
    (fun st i =>
      ((vitStep probs (i + 1) K st.1).1,
       st.2 ++ [(vitStep probs (i + 1) K st.1).2]))
    (vitDp0 probs K, [List.replicate K 0])

/-- The backtracking loop
`for (t = T-1; t >= 0; t--) { path[t] = labels[lastK]; lastK = back[t][lastK] }`. -/
def vitBacktrack (back : List (List ℕ)) (labels : List String) :
    ℕ → ℕ → List String
  | 0, k => [labels.getD k ""]
  | t + 1, k =>
    vitBacktrack back labels t ((back.getD (t + 1) []).getD k 0)
      ++ [labels.getD k ""]

/-- The `viterbiSmoothSleepStages(probs, labels)`: empty path for `T = 0` or
`K = 0`, else forward dynamic program, first-seen argmax over the last
dp row, and backtracking through the stored back-pointers. -/
noncomputable def viterbiSmoothSleepStages (probs : List (List ℝ))
    (labels : List String) : List String :=
  let T := probs.length
  let K := labels.length
  if T = 0 ∨ K = 0 then []
  else
    let fw := vitForward probs K T
    vitBacktrack fw.2 labels (T - 1) (jsFirstMax fw.1).2

/-- List maximum in `EReal` seeded with the head (`[]` gives `⊥`),
for the claim-side dp over JavaScript's extended reals. -/
noncomputable def listMaxE : List EReal → EReal
  | [] => ⊥
  | v :: vs => vs.foldl max v

/-- First index attaining the maximum (spec-side argmax). -/
noncomputable def firstIdxMax (l : List ℝ) : ℕ :=
  l.findIdx (fun v => decide (v = jsListMax l))

/-- First index attaining the maximum over `EReal`. -/
noncomputable def firstIdxMaxE (l : List EReal) : ℕ :=
  l.findIdx (fun v => decide (v = listMaxE l))

/-- JavaScript `Math.log` into the extended reals: `log 0 = -∞`
(and junk `⊥` for negative input, which no caller produces). -/
noncomputable def jsLog (x : ℝ) : EReal :=
  if x ≤ 0 then ⊥ else ((Real.log x : ℝ) : EReal)

/-- The dp of claim C6 exactly as stated: the prior and transition
probabilities enter as bare `log(pi[k])` / `log(A[j][k])` (so a zero
prior contributes `-∞`), only the emissions are clamped at `eps`. -/
noncomputable def claimDp (probs : List (List ℝ)) (K : ℕ) : ℕ → List EReal
  | 0 => (List.range K).map (fun k =>
      jsLog (vitPi.getD k 0)
        + ((Real.log (max ((probs.getD 0 []).getD k 0) vitEps) : ℝ) : EReal))
  | t + 1 => (List.range K).map (fun k =>
      listMaxE ((List.range K).map (fun j =>
        (claimDp probs K t).getD j 0 + jsLog ((vitA.getD j []).getD k 0)))
        + ((Real.log (max ((probs.getD (t + 1) []).getD k 0) vitEps) : ℝ) : EReal))

/-- Back-pointer rows of the claim-side dp (`back[0] = 0`). -/
noncomputable def claimBackRow (probs : List (List ℝ)) (K : ℕ) : ℕ → List ℕ
  | 0 => List.replicate K 0
  | t + 1 => (List.range K).map (fun k =>
      firstIdxMaxE ((List.range K).map (fun j =>
        (claimDp probs K t).getD j 0 + jsLog ((vitA.getD j []).getD k 0))))

/-- Backtracking through the claim-side back-pointers. -/
noncomputable def claimBacktrack (probs : List (List ℝ)) (K : ℕ)
    (labels : List String) : ℕ → ℕ → List String
  | 0, k => [labels.getD k ""]
  | t + 1, k =>
    claimBacktrack probs K labels t ((claimBackRow probs K (t + 1)).getD k 0)
      ++ [labels.getD k ""]

/-- The path determined by claim C6's dp as literally stated. -/
noncomputable def claimViterbiPath (probs : List (List ℝ))
    (labels : List String) : List String :=
  let T := probs.length
  let K := labels.length
  if T = 0 ∨ K = 0 then []
  else claimBacktrack probs K labels (T - 1)
    (firstIdxMaxE (claimDp probs K (T - 1)))

/-- The amended dp: like the claim's, but over the reals, with the
prior and the transitions clamped at `eps` before the logarithm, just
as the emissions are. -/
noncomputable def amendedDp (probs : List (List ℝ)) (K : ℕ) : ℕ → List ℝ
  | 0 => (List.range K).map (fun k =>
      Real.log (max (vitPi.getD k 0) vitEps)
        + Real.log (max ((probs.getD 0 []).getD k 0) vitEps))
  | t + 1 => (List.range K).map (fun k =>
      jsListMax ((List.range K).map (fun j =>
        (amendedDp probs K t).getD j 0
          + Real.log (max ((vitA.getD j []).getD k 0) vitEps)))
        + Real.log (max ((probs.getD (t + 1) []).getD k 0) vitEps))

/-- Back-pointer rows of the amended dp (`back[0] = 0`). -/
noncomputable def amendedBackRow (probs : List (List ℝ)) (K : ℕ) : ℕ → List ℕ
  | 0 => List.replicate K 0
  | t + 1 => (List.range K).map (fun k =>
      firstIdxMax ((List.range K).map (fun j =>
        (amendedDp probs K t).getD j 0
          + Real.log (max ((vitA.getD j []).getD k 0) vitEps))))

/-- Backtracking through the amended back-pointers. -/
noncomputable def amendedBacktrack (probs : List (List ℝ)) (K : ℕ)
    (labels : List String) : ℕ → ℕ → List String
  | 0, k => [labels.getD k ""]
  | t + 1, k =>
    amendedBacktrack probs K labels t
      ((amendedBackRow probs K (t + 1)).getD k 0) ++ [labels.getD k ""]

/-- The path determined by the amended (eps-clamped) dp. -/
noncomputable def amendedViterbiPath (probs : List (List ℝ))
    (labels : List String) : List String :=
  let T := probs.length
  let K := labels.length
  if T = 0 ∨ K = 0 then []
  else amendedBacktrack probs K labels (T - 1)
    (firstIdxMax (amendedDp probs K (T - 1)))

/-- The seed never exceeds a max fold. -/
theorem le_foldl_max (vs : List ℝ) : ∀ b : ℝ, b ≤ vs.foldl max b := by
  induction vs with
  | nil => intro b; exact le_refl b
  | cons a vs ih =>
    intro b
    exact le_trans (le_max_left b a) (ih (max b a))

/-- The value component of the first-maximum scan is the max fold. -/
theorem jsFirstMaxAux_fst (vs : List ℝ) :
    ∀ (b : ℝ) (bi i : ℕ), (jsFirstMaxAux b bi i vs).1 = vs.foldl max b := by
  induction vs with
  | nil => intro b bi i; rfl
  | cons a vs ih =>
    intro b bi i
    show (if b < a then jsFirstMaxAux a i (i + 1) vs
        else jsFirstMaxAux b bi (i + 1) vs).1 = vs.foldl max (max b a)
    by_cases h : b < a
    · rw [if_pos h, ih, max_eq_right (le_of_lt h)]
    · rw [if_neg h, ih, max_eq_left (not_lt.mp h)]

/-- The index component of the first-maximum scan: the seed's index if
no later element improves on the seed, else the offset of the first
element attaining the fold maximum. -/
theorem jsFirstMaxAux_snd (vs : List ℝ) :
    ∀ (b : ℝ) (bi i : ℕ), (jsFirstMaxAux b bi i vs).2
      = if vs.foldl max b ≤ b then bi
        else i + vs.findIdx (fun v => decide (v = vs.foldl max b)) := by
  induction vs with
  | nil =>
    intro b bi i
    rw [List.foldl_nil, if_pos (le_refl b)]
    rfl
  | cons a vs ih =>
    intro b bi i
    show (if b < a then jsFirstMaxAux a i (i + 1) vs
        else jsFirstMaxAux b bi (i + 1) vs).2 = _
    have hM : (a :: vs).foldl max b = vs.foldl max (max b a) := rfl
    by_cases h : b < a
    · rw [if_pos h, ih]
      have hMa : vs.foldl max (max b a) = vs.foldl max a := by
        rw [max_eq_right (le_of_lt h)]
      have hge : a ≤ vs.foldl max a := le_foldl_max vs a
      rw [hM, hMa]
      by_cases h2 : vs.foldl max a ≤ a
      · have heq : vs.foldl max a = a := le_antisymm h2 hge
        rw [if_pos h2, if_neg (by rw [heq]; exact not_le.mpr h),
          List.findIdx_cons]
        simp [heq]
      · have hne : ¬(a = vs.foldl max a) := fun hc => h2 (le_of_eq hc.symm)
        rw [if_neg h2,
          if_neg (fun hc => h2 (le_trans hc (le_of_lt h))),
          List.findIdx_cons]
        simp only [hne, decide_False, cond_false]
        omega
    · rw [if_neg h, ih]
      have hMa : vs.foldl max (max b a) = vs.foldl max b := by
        rw [max_eq_left (not_lt.mp h)]
      rw [hM, hMa]
      by_cases h2 : vs.foldl max b ≤ b
      · rw [if_pos h2, if_pos h2]
      · have hne : ¬(a = vs.foldl max b) :=
          fun hc => h2 (hc ▸ (not_lt.mp h))
        rw [if_neg h2, if_neg h2, List.findIdx_cons]
        simp only [hne, decide_False, cond_false]
        omega

/-- On a non-empty list the strict-`>` scan returns the maximum and the
first index attaining it. -/
theorem jsFirstMax_eq (l : List ℝ) (h : l ≠ []) :
    jsFirstMax l = (jsListMax l, firstIdxMax l) := by
  match l, h with
  | v :: vs, _ =>
    have hfst := jsFirstMaxAux_fst vs v 0 1
    have hsnd := jsFirstMaxAux_snd vs v 0 1
    have hM : jsListMax (v :: vs) = vs.foldl max v := rfl
    have hgv : v ≤ vs.foldl max v := le_foldl_max vs v
    refine Prod.ext ?_ ?_
    · rw [hM]; exact hfst
    · show (jsFirstMaxAux v 0 1 vs).2 = firstIdxMax (v :: vs)
      rw [hsnd]
      unfold firstIdxMax
      rw [hM, List.findIdx_cons]
      by_cases h2 : vs.foldl max v ≤ v
      · have heq : vs.foldl max v = v := le_antisymm h2 hgv
        rw [if_pos h2]
        simp [heq]
      · have hne : ¬(v = vs.foldl max v) := fun hc => h2 (le_of_eq hc.symm)
        rw [if_neg h2]
        simp only [hne, decide_False, cond_false]
        omega

/-- The `logPi` lookup agrees with clamping-then-logging the prior entry. -/
theorem vitLogPi_getD (k : ℕ) (hk : k < 5) :
    vitLogPi.getD k 0 = Real.log (max (vitPi.getD k 0) vitEps) := by
  unfold vitLogPi
  exact getD_map_of_lt _ vitPi (by simpa using hk) 0 0

/-- Rows of the transition matrix have five entries. -/
theorem vitA_row_length (j : ℕ) (hj : j < 5) :
    (vitA.getD j []).length = 5 := by
  interval_cases j <;> rfl

/-- The `logA` lookup agrees with clamping-then-logging the matrix entry. -/
theorem vitLogA_getD (j k : ℕ) (hj : j < 5) (hk : k < 5) :
    (vitLogA.getD j []).getD k 0
      = Real.log (max ((vitA.getD j []).getD k 0) vitEps) := by
  unfold vitLogA
  rw [getD_map_of_lt _ vitA (by simpa using hj) [] []]
  exact getD_map_of_lt _ _ (by rw [vitA_row_length j hj]; exact hk) 0 0

/-- The dp rows are never empty for a positive class count. -/
theorem amendedDp_ne_nil (probs : List (List ℝ)) (K : ℕ) (hK : 0 < K)
    (m : ℕ) : amendedDp probs K m ≠ [] := by
  have hlen : (amendedDp probs K m).length = K := by
    cases m <;> simp [amendedDp]
  intro hc
  rw [hc] at hlen
  simp at hlen
  omega

/-- The candidate lists of the code and of the amended dp coincide
entry by entry (the lookups into `logA` resolve for `K ≤ 5`). -/
theorem vitCands_eq (dpPrev : List ℝ) (k K : ℕ) (hK5 : K ≤ 5) (hk : k < K) :
    vitCands dpPrev k K = (List.range K).map (fun j =>
      dpPrev.getD j 0 + Real.log (max ((vitA.getD j []).getD k 0) vitEps)) := by
  unfold vitCands
  apply List.map_congr_left
  intro j hj
  rw [vitLogA_getD j k (lt_of_lt_of_le (List.mem_range.mp hj) hK5)
    (lt_of_lt_of_le hk hK5)]

/-- One forward step of the code reproduces the amended dp row and
back-pointer row. -/
theorem vitStep_eq (probs : List (List ℝ)) (K : ℕ) (hK1 : 0 < K)
    (hK5 : K ≤ 5) (m : ℕ) :
    vitStep probs (m + 1) K (amendedDp probs K m)
      = (amendedDp probs K (m + 1), amendedBackRow probs K (m + 1)) := by
  have hne : ∀ k : ℕ, vitCands (amendedDp probs K m) k K ≠ [] := by
    intro k
    have : (vitCands (amendedDp probs K m) k K).length = K := by
      simp [vitCands]
    intro hc
    rw [hc] at this
    simp at this
    omega
  unfold vitStep
  refine Prod.ext ?_ ?_
  · show (List.range K).map _ = amendedDp probs K (m + 1)
    rw [show amendedDp probs K (m + 1) = (List.range K).map (fun k =>
        jsListMax ((List.range K).map (fun j =>
          (amendedDp probs K m).getD j 0
            + Real.log (max ((vitA.getD j []).getD k 0) vitEps)))
          + Real.log (max ((probs.getD (m + 1) []).getD k 0) vitEps))
      from rfl]
    apply List.map_congr_left
    intro k hk
    rw [jsFirstMax_eq _ (hne k),
      vitCands_eq _ k K hK5 (List.mem_range.mp hk)]
    rfl
  · show (List.range K).map _ = amendedBackRow probs K (m + 1)
    rw [show amendedBackRow probs K (m + 1) = (List.range K).map (fun k =>
        firstIdxMax ((List.range K).map (fun j =>
          (amendedDp probs K m).getD j 0
            + Real.log (max ((vitA.getD j []).getD k 0) vitEps))))
      from rfl]
    apply List.map_congr_left
    intro k hk
    rw [jsFirstMax_eq _ (hne k),
      vitCands_eq _ k K hK5 (List.mem_range.mp hk)]

/-- The forward fold of the code computes the amended dp and the full
table of amended back-pointer rows. -/
theorem vitForward_fold_eq (probs : List (List ℝ)) (K : ℕ) (hK1 : 0 < K)
    (hK5 : K ≤ 5) (m : ℕ) :
    (List.range m).foldl
      (fun st i =>
        ((vitStep probs (i + 1) K st.1).1,
         st.2 ++ [(vitStep probs (i + 1) K st.1).2]))
      (vitDp0 probs K, [List.replicate K 0])
      = (amendedDp probs K m,
         (List.range (m + 1)).map (amendedBackRow probs K)) := by
  induction m with
  | zero =>
    simp only [List.range_zero, List.foldl_nil]
    refine Prod.ext ?_ ?_
    · show vitDp0 probs K = amendedDp probs K 0
      unfold vitDp0
      rw [show amendedDp probs K 0 = (List.range K).map (fun k =>
          Real.log (max (vitPi.getD k 0) vitEps)
            + Real.log (max ((probs.getD 0 []).getD k 0) vitEps)) from rfl]
      apply List.map_congr_left
      intro k hk
      rw [vitLogPi_getD k (lt_of_lt_of_le (List.mem_range.mp hk) hK5)]
      rfl
    · show [List.replicate K 0] = (List.range 1).map (amendedBackRow probs K)
      rfl
  | succ m ih =>
    rw [List.range_succ, List.foldl_append, ih]
    simp only [List.foldl_cons, List.foldl_nil]
    rw [vitStep_eq probs K hK1 hK5 m]
    refine Prod.ext rfl ?_
    show (List.range (m + 1)).map (amendedBackRow probs K)
        ++ [amendedBackRow probs K (m + 1)]
      = (List.range (m + 1 + 1)).map (amendedBackRow probs K)
    conv_rhs => rw [List.range_succ]
    rw [List.map_append]
    rfl

/-- The backtracking loops agree once the back table is the table of
amended back-pointer rows. -/
theorem vitBacktrack_eq (probs : List (List ℝ)) (K T : ℕ)
    (labels : List String) :
    ∀ t k, t + 1 ≤ T →
      vitBacktrack ((List.range T).map (amendedBackRow probs K)) labels t k
        = amendedBacktrack probs K labels t k := by
  intro t
  induction t with
  | zero => intro k _; rfl
  | succ t ih =>
    intro k ht
    show vitBacktrack _ labels t _ ++ _ = amendedBacktrack probs K labels t _ ++ _
    rw [getD_map_range (amendedBackRow probs K) (by omega) []]
    rw [ih _ (by omega)]

/-- C6 (amended): the smoother returns the path of the log-space
dynamic program in which *all* probabilities — prior, transition, and
emission — are clamped at `eps = 1e-12` before the logarithm:
`dp[0][k] = log(max(pi[k], eps)) + log(max(probs[0][k], eps))`,
`dp[t][k] = max_j(dp[t-1][j] + log(max(A[j][k], eps)))
+ log(max(probs[t][k], eps))`, terminating at the first-seen argmax of
the last row and backtracking through the stored back-pointers;
`T = 0` or `K = 0` yields the empty path.  (The hard-coded `A`/`pi` are
5×5/5-dimensional, so label sets of at most five classes are
modelled.) -/
theorem c6_viterbi_smoother (probs : List (List ℝ)) (labels : List String)
    (hK : labels.length ≤ 5) :
    viterbiSmoothSleepStages probs labels = amendedViterbiPath probs labels := by
  unfold viterbiSmoothSleepStages amendedViterbiPath
  dsimp only
  by_cases hTK : probs.length = 0 ∨ labels.length = 0
  · rw [if_pos hTK, if_pos hTK]
  · rw [if_neg hTK, if_neg hTK]
    push_neg at hTK
    have hT1 : 0 < probs.length := Nat.pos_of_ne_zero hTK.1
    have hK1 : 0 < labels.length := Nat.pos_of_ne_zero hTK.2
    have hfw : vitForward probs labels.length probs.length
        = (amendedDp probs labels.length (probs.length - 1),
           (List.range (probs.length - 1 + 1)).map
             (amendedBackRow probs labels.length)) :=
      vitForward_fold_eq probs labels.length hK1 hK (probs.length - 1)
    rw [hfw]
    rw [jsFirstMax_eq _ (amendedDp_ne_nil probs labels.length hK1 _)]
    have hTT : probs.length - 1 + 1 = probs.length :=
      Nat.succ_pred_eq_of_pos hT1
    rw [hTT]
    exact vitBacktrack_eq probs labels.length probs.length labels
      (probs.length - 1) _ (by omega)

/-- C6 witness: the amended smoother theorem at the one-epoch emission
matrix `[[1, 0, 0, 0, 0]]` and the five stage labels. -/
theorem c6_witness :
    (["W", "N1", "N2", "N3", "REM"] : List String).length ≤ 5
    ∧ viterbiSmoothSleepStages [[1, 0, 0, 0, 0]] ["W", "N1", "N2", "N3", "REM"]
      = amendedViterbiPath [[1, 0, 0, 0, 0]] ["W", "N1", "N2", "N3", "REM"] :=
  ⟨by decide,
    c6_viterbi_smoother [[1, 0, 0, 0, 0]] ["W", "N1", "N2", "N3", "REM"]
      (by decide)⟩

/-- C6 counterexample: on the one-epoch emission row `[0, 0, 0, 1, 0]`
the smoother returns `["N3"]` — the clamped `log(max(pi[3], eps))
= log(1e-12)` beats `log(0.9) + log(1e-12)` — whereas the claim's dp,
with the bare `log(pi[k])` and `pi[3] = 0`, assigns state `N3` the score
`-∞` and selects `["W"]`. -/
theorem c6_counterexample :
    viterbiSmoothSleepStages [[0, 0, 0, 1, 0]] ["W", "N1", "N2", "N3", "REM"]
      = ["N3"]
    ∧ claimViterbiPath [[0, 0, 0, 1, 0]] ["W", "N1", "N2", "N3", "REM"]
      = ["W"]
    ∧ viterbiSmoothSleepStages [[0, 0, 0, 1, 0]] ["W", "N1", "N2", "N3", "REM"]
      ≠ claimViterbiPath [[0, 0, 0, 1, 0]] ["W", "N1", "N2", "N3", "REM"] := by
  have m9 : max (0.90 : ℝ) vitEps = 0.90 := max_eq_left (by norm_num [vitEps])
  have m8 : max (0.08 : ℝ) vitEps = 0.08 := max_eq_left (by norm_num [vitEps])
  have m2 : max (0.02 : ℝ) vitEps = 0.02 := max_eq_left (by norm_num [vitEps])
  have m00 : max (0.0 : ℝ) vitEps = vitEps :=
    max_eq_right (by norm_num [vitEps])
  have m0 : max (0 : ℝ) vitEps = vitEps := max_eq_right (by norm_num [vitEps])
  have m1 : max (1 : ℝ) vitEps = 1 := max_eq_left (by norm_num [vitEps])
  have h89 : Real.log 0.08 < Real.log 0.90 :=
    Real.log_lt_log (by norm_num) (by norm_num)
  have h29 : Real.log 0.02 < Real.log 0.90 :=
    Real.log_lt_log (by norm_num) (by norm_num)
  have h9 : Real.log 0.90 < 0 := Real.log_neg (by norm_num) (by norm_num)
  have hL : Real.log vitEps < 0 :=
    Real.log_neg (by norm_num [vitEps]) (by norm_num [vitEps])
  have hdp0 : vitDp0 [[0, 0, 0, 1, 0]] 5
      = [Real.log 0.90 + Real.log vitEps,
         Real.log 0.08 + Real.log vitEps,
         Real.log 0.02 + Real.log vitEps,
         Real.log vitEps,
         Real.log vitEps + Real.log vitEps] := by
    unfold vitDp0 vitE vitLogPi vitPi
    rw [show List.range 5 = [0, 1, 2, 3, 4] from rfl]
    simp only [List.map_cons, List.map_nil, List.getD_cons_zero,
      List.getD_cons_succ]
    rw [m9, m8, m2, m00, m0, m1, Real.log_one, add_zero]
  have hA : ¬(Real.log 0.90 + Real.log vitEps
      < Real.log 0.08 + Real.log vitEps) := by linarith
  have hB : ¬(Real.log 0.90 + Real.log vitEps
      < Real.log 0.02 + Real.log vitEps) := by linarith
  have hC : Real.log 0.90 + Real.log vitEps < Real.log vitEps := by linarith
  have hD : ¬(Real.log vitEps < Real.log vitEps + Real.log vitEps) := by
    linarith
  have hfm : jsFirstMax
      [Real.log 0.90 + Real.log vitEps,
       Real.log 0.08 + Real.log vitEps,
       Real.log 0.02 + Real.log vitEps,
       Real.log vitEps,
       Real.log vitEps + Real.log vitEps] = (Real.log vitEps, 3) := by
    simp only [jsFirstMax, jsFirstMaxAux]
    rw [if_neg hA, if_neg hB, if_pos hC, if_neg hD]
  have hcode : viterbiSmoothSleepStages [[0, 0, 0, 1, 0]]
      ["W", "N1", "N2", "N3", "REM"] = ["N3"] := by
    unfold viterbiSmoothSleepStages
    dsimp only
    rw [if_neg (by norm_num)]
    unfold vitForward
    rw [show (([[(0 : ℝ), 0, 0, 1, 0]]).length - 1) = 0 from rfl]
    simp only [List.range_zero, List.foldl_nil]
    rw [show ((["W", "N1", "N2", "N3", "REM"] : List String)).length = 5
      from rfl]
    rw [hdp0, hfm]
    rfl
  have hclaim : claimViterbiPath [[0, 0, 0, 1, 0]]
      ["W", "N1", "N2", "N3", "REM"] = ["W"] := by
    have hdU : claimDp [[0, 0, 0, 1, 0]] 5 0
        = [((Real.log 0.90 + Real.log vitEps : ℝ) : EReal),
           ((Real.log 0.08 + Real.log vitEps : ℝ) : EReal),
           ((Real.log 0.02 + Real.log vitEps : ℝ) : EReal),
           (⊥ : EReal), (⊥ : EReal)] := by
      unfold claimDp jsLog vitPi
      rw [show List.range 5 = [0, 1, 2, 3, 4] from rfl]
      simp only [List.map_cons, List.map_nil, List.getD_cons_zero,
        List.getD_cons_succ]
      rw [m0, m1, if_neg (show ¬((0.90 : ℝ) ≤ 0) by norm_num),
        if_neg (show ¬((0.08 : ℝ) ≤ 0) by norm_num),
        if_neg (show ¬((0.02 : ℝ) ≤ 0) by norm_num),
        if_pos (show (0.0 : ℝ) ≤ 0 by norm_num)]
      rw [EReal.bot_add, EReal.bot_add, ← EReal.coe_add, ← EReal.coe_add,
        ← EReal.coe_add]
    have hle1 : ((Real.log 0.08 + Real.log vitEps : ℝ) : EReal)
        ≤ ((Real.log 0.90 + Real.log vitEps : ℝ) : EReal) := by
      rw [EReal.coe_le_coe_iff]
      linarith
    have hle2 : ((Real.log 0.02 + Real.log vitEps : ℝ) : EReal)
        ≤ ((Real.log 0.90 + Real.log vitEps : ℝ) : EReal) := by
      rw [EReal.coe_le_coe_iff]
      linarith
    have hmaxE : listMaxE
        [((Real.log 0.90 + Real.log vitEps : ℝ) : EReal),
         ((Real.log 0.08 + Real.log vitEps : ℝ) : EReal),
         ((Real.log 0.02 + Real.log vitEps : ℝ) : EReal),
         (⊥ : EReal), (⊥ : EReal)]
        = ((Real.log 0.90 + Real.log vitEps : ℝ) : EReal) := by
      show List.foldl max _ _ = _
      rw [List.foldl_cons, max_eq_left hle1, List.foldl_cons,
        max_eq_left hle2, List.foldl_cons, max_eq_left bot_le,
        List.foldl_cons, max_eq_left bot_le, List.foldl_nil]
    have hidxE : firstIdxMaxE
        [((Real.log 0.90 + Real.log vitEps : ℝ) : EReal),
         ((Real.log 0.08 + Real.log vitEps : ℝ) : EReal),
         ((Real.log 0.02 + Real.log vitEps : ℝ) : EReal),
         (⊥ : EReal), (⊥ : EReal)] = 0 := by
      unfold firstIdxMaxE
      simp only [hmaxE, List.findIdx_cons, decide_eq_true_eq]
      simp
    unfold claimViterbiPath
    dsimp only
    rw [if_neg (by norm_num)]
    rw [show (([[(0 : ℝ), 0, 0, 1, 0]]).length - 1) = 0 from rfl,
      show ((["W", "N1", "N2", "N3", "REM"] : List String)).length = 5
        from rfl]
    rw [hdU, hidxE]
    rfl
  refine ⟨hcode, hclaim, ?_⟩
  rw [hcode, hclaim]
  simp
